import Mathlib

/-!
# Text layout and scroll window of `WrappedText`

A shallow embedding of `source/text/WrappedText.h`.  The header gives the data
members with their default values and the inline members `Scroll`, `DoScroll`,
`CanScrollUp` and `CanScrollDown`; these are transcribed from it.  The bodies of the
out-of-line members (`SetScroll`, `SetVisibleHeight`, `Wrap`, `AdjustLine`) and the
types `Font` and `Animate<int>` are not among the sources; they are modelled from
the specification and every such definition says so in its doc comment.

C++ `int` values are modelled by `Int`.  Signed overflow is undefined behaviour in
C++, so the model describes the program wherever the C++ arithmetic is defined.

The key bindings and bit masks of `source/Command.cpp` and the key handling and
sizing of `source/Dialog.cpp` follow the layout engine, each with its own
definitions; all theorems come after the definitions.
-/

namespace WrappedText

/-- Modelled from the spec: the enumeration `Alignment` (`alignment.hpp` is not among
the sources), with the four modes the specification lists. -/
inductive Alignment where
  | LEFT
  | CENTER
  | RIGHT
  | JUSTIFIED
  deriving DecidableEq, Repr

/-- Modelled from the spec: the enumeration `Truncate` (`truncate.hpp` is not among
the sources), with the four modes the specification lists. -/
inductive Truncate where
  | NONE
  | FRONT
  | MIDDLE
  | BACK
  deriving DecidableEq, Repr

/-- Modelled from the spec: the font collaborator (`Font` is only forward declared in
the header).  It measures one character (`none` for a glyph it cannot measure) and
reports its line height and its space width, all of them in pixels. -/
structure Font where
  advance : Char → Option Nat
  height : Nat
  space : Nat

/-- Modelled from the spec: the animated value `Animate<int>` (`Animate.h` is not
among the sources).  It is the pair of the value being displayed, which converges
towards the target over the following frames, and the target itself, which is the
committed value. -/
structure Animate where
  current : Int
  target : Int
  deriving DecidableEq, Repr

/-- Modelled from the spec: reading an `Animate<int>` as an `int` (the implicit
conversion used by `scrollY > 0` and `scrollY + dY`) gives the committed value. -/
def Animate.value (a : Animate) : Int := a.target

/-- Modelled from the spec: assigning to an `Animate<int>` sets the new target; the
displayed value is left where it is and catches up later. -/
def Animate.set (a : Animate) (v : Int) : Animate := { a with target := v }

/-- The class `WrappedText::Word`: the offset of the word in the text and its
position. -/
structure Word where
  index : Nat := 0
  x : Int := 0
  y : Int := 0
  deriving DecidableEq, Repr

end WrappedText

/-- The data members of `class WrappedText`, with the default member initialisers of
the header. -/
structure WrappedText where
  font : Option WrappedText.Font := none
  space : Int := 0
  wrapWidth : Int := 1000
  tabWidth : Int := 0
  lineHeight : Int := 0
  paragraphBreak : Int := 0
  alignment : WrappedText.Alignment := WrappedText.Alignment.JUSTIFIED
  truncate : WrappedText.Truncate := WrappedText.Truncate.NONE
  text : List Char := []
  words : List WrappedText.Word := []
  height : Int := 0
  visibleHeight : Int := -1
  scrollY : WrappedText.Animate := ⟨0, 0⟩
  longestLineWidth : Int := 0

namespace WrappedText

/-! ## Scroll window -/

/-- Modelled from the spec: `WrappedText::SetVisibleHeight` (body not among the
sources) sets the height of the clipping window; `-1` is the sentinel that disables
clipping. -/
def SetVisibleHeight (t : WrappedText) (height : Int) : WrappedText :=
  { t with visibleHeight := height }

/-- Modelled from the spec: `WrappedText::VisibleHeight` (body not among the
sources): the height of the clipping window and, while clipping is disabled, the
height of the text, which is what `Dialog::Init` sizes its panel by. -/
def VisibleHeight (t : WrappedText) : Int :=
  if t.visibleHeight = -1 then t.height else t.visibleHeight

/-- Modelled from the spec: `WrappedText::SetScroll` (body not among the sources).
The requested offset is clamped to `[0, max(0, height - visibleHeight)]` before it
becomes the new target; with the unbounded sentinel the offset is forced to 0.  The
function is total: there is no error result. -/
def SetScroll (t : WrappedText) (offsetY : Int) : WrappedText :=
  if t.visibleHeight = -1 then
    { t with scrollY := t.scrollY.set 0 }
  else
    { t with scrollY :=
        t.scrollY.set (max 0 (min offsetY (max 0 (t.height - t.visibleHeight)))) }

/-- The inline member `int Scroll() { return scrollY; }`. -/
def Scroll (t : WrappedText) : Int := t.scrollY.value

/-- The inline member `void DoScroll(int dY) { SetScroll(scrollY + dY); }`. -/
def DoScroll (t : WrappedText) (dY : Int) : WrappedText :=
  SetScroll t (t.scrollY.value + dY)

/-- The inline member `bool CanScrollUp() const { return scrollY > 0; }`. -/
def CanScrollUp (t : WrappedText) : Bool := decide (t.scrollY.value > 0)

/-- The inline member
`bool CanScrollDown() const { return visibleHeight != -1 && scrollY < height - visibleHeight; }`. -/
def CanScrollDown (t : WrappedText) : Bool :=
  t.visibleHeight != -1 && decide (t.scrollY.value < t.height - t.visibleHeight)

/-! ## Layout engine

`WrappedText.cpp` is not among the sources, so the layout is modelled from the
specification's description of `Wrap` (section 4.1, steps 1 to 7).  Truncation
(step 6) replaces the glyphs drawn for a lone over-wide word and leaves the recorded
word positions alone, so it does not appear in the layout result. -/

/-- Modelled from the spec: the advance of one character (the font's `Width` is not
among the sources); a glyph the font cannot measure falls back to the font's space
width. -/
def charWidth (f : Font) (c : Char) : Int := ((f.advance c).getD f.space : Nat)

/-- What the scan of the text meets: the break opportunities (space, tab), the
line-break marker that ends a paragraph, and the words (maximal runs of other
characters) with the offset of their first character and their measured width. -/
inductive Item where
  | space
  | tab
  | newline
  | word (index : Nat) (width : Int)
  deriving DecidableEq, Repr

/-- The word in progress, if any, is complete when a break is met. -/
def closeWord : Option (Nat × Int) → List Item
  | none => []
  | some (i, w) => [Item.word i w]

/-- Modelled from the spec: step 2 of `Wrap`, the left-to-right scan of the characters
(`SetText`/`Wrap` bodies are not among the sources).  `i` is the offset of the next
character and `cur` the word in progress (its offset and the width measured so far). -/
def items (f : Font) : List Char → Nat → Option (Nat × Int) → List Item
  | [], _, cur => closeWord cur
  | c :: cs, i, cur =>
    if c = ' ' then closeWord cur ++ Item.space :: items f cs (i + 1) none
    else if c = '\t' then closeWord cur ++ Item.tab :: items f cs (i + 1) none
    else if c = '\n' then closeWord cur ++ Item.newline :: items f cs (i + 1) none
    else
      match cur with
      | none => items f cs (i + 1) (some (i, charWidth f c))
      | some (s, w) => items f cs (i + 1) (some (s, w + charWidth f c))

/-- A word placed on a line: the offset of its first character, its x and its
measured width. -/
structure Placed where
  index : Nat
  x : Int
  width : Int
  deriving DecidableEq, Repr

/-- A completed line: its words from left to right, and whether it is the last line
of its paragraph (the `isEnd` argument of `AdjustLine`). -/
structure Line where
  words : List Placed
  isEnd : Bool
  deriving DecidableEq, Repr

/-- Modelled from the spec: a tab advances the pen to the next multiple of the tab
width; without a positive tab width there is no next stop and the pen stays. -/
def tabStop (tabWidth x : Int) : Int :=
  if 0 < tabWidth then (Int.tdiv x tabWidth + 1) * tabWidth else x

/-- Modelled from the spec: steps 3 and 4 of `Wrap`, the greedy fill.  `x` is the pen
position and `line` the words already on the current line.  A space moves the pen
by the space width and a tab to the next tab stop.  A word that still ends within
the wrap width is placed at the pen.  A word that would end beyond it goes to x = 0:
of a new line when the current line has words (the current line is then closed, not
as the end of a paragraph), of the current line when it has none (the first word of
a line is never deferred).  A line-break marker and the end of the text close the
current line as the end of a paragraph.  The space width, the tab width and the wrap
width are the members `space`, `tabWidth` and `wrapWidth`. -/
def fill (space tabWidth wrapWidth : Int) : List Item → Int → List Placed → List Line
  | [], _, line => [⟨line, true⟩]
  | Item.space :: r, x, line => fill space tabWidth wrapWidth r (x + space) line
  | Item.tab :: r, x, line => fill space tabWidth wrapWidth r (tabStop tabWidth x) line
  | Item.newline :: r, _, line => ⟨line, true⟩ :: fill space tabWidth wrapWidth r 0 []
  | Item.word i w :: r, x, line =>
    if x + w > wrapWidth then
      if line.isEmpty then fill space tabWidth wrapWidth r w [⟨i, 0, w⟩]
      else ⟨line, false⟩ :: fill space tabWidth wrapWidth r w [⟨i, 0, w⟩]
    else fill space tabWidth wrapWidth r (x + w) (line ++ [⟨i, x, w⟩])

/-- Modelled from the spec: the natural width of a line (the `lineWidth` argument of
`AdjustLine`) is the right edge of its last word, 0 without words. -/
def lineWidth (line : List Placed) : Int :=
  match line.getLast? with
  | none => 0
  | some p => p.x + p.width

/-- The sum of the measured widths of the words of a line. -/
def wordsWidth (line : List Placed) : Int := (line.map Placed.width).sum

/-- Modelled from the spec: justification distributes the slack over the `gaps`
inter-word gaps; word number `i` of the line, with `before` the widths of the words
to its left, goes to `before + slack * i / gaps`. -/
def justify (slack gaps : Int) : List Placed → Nat → Int → List Placed
  | [], _, _ => []
  | p :: ps, i, before =>
    { p with x := before + Int.tdiv (slack * i) gaps } ::
      justify slack gaps ps (i + 1) (before + p.width)

/-- Every word of the line moves right by `d`. -/
def shift (d : Int) (line : List Placed) : List Placed :=
  line.map (fun p => { p with x := p.x + d })

/-- Modelled from the spec: step 5 of `Wrap`, `WrappedText::AdjustLine` (body not
among the sources), applied to a completed line of natural width `lineWidth`.
LEFT keeps the natural positions, RIGHT shifts by `wrapWidth - lineWidth`, CENTER by
half of that, JUSTIFIED distributes `wrapWidth - sum of word widths` over the gaps,
except on the last line of a paragraph and on a line of one word, which stay as
under LEFT. -/
def AdjustLine (t : WrappedText) (line : List Placed) (lineWidth : Int) (isEnd : Bool) :
    List Placed :=
  let wordCount := line.length
  match t.alignment with
  | Alignment.LEFT => line
  | Alignment.RIGHT => shift (t.wrapWidth - lineWidth) line
  | Alignment.CENTER => shift (Int.tdiv (t.wrapWidth - lineWidth) 2) line
  | Alignment.JUSTIFIED =>
    if !isEnd && wordCount > 1 then
      justify (t.wrapWidth - wordsWidth line) (wordCount - 1 : Nat) line 0 0
    else line

/-- Modelled from the spec: the lines of the text of `t` before alignment (natural
positions).  An empty text and a missing font give no line at all. -/
def naturalLines (t : WrappedText) : List Line :=
  match t.font with
  | none => []
  | some f => if t.text.isEmpty then []
    else fill t.space t.tabWidth t.wrapWidth (items f t.text 0 none) 0 []

/-- Modelled from the spec: the lines of the text of `t` once `AdjustLine` has been
applied to each completed line. -/
def lines (t : WrappedText) : List Line :=
  (naturalLines t).map
    (fun l => { l with words := AdjustLine t l.words (lineWidth l.words) l.isEnd })

/-- Modelled from the spec: lines are stacked from `y` downwards, one line height
apart, and the end of a paragraph adds the paragraph break; the words are recorded in
reading order with their offset and position (step 7). -/
def stack (t : WrappedText) : List Line → Int → List Word
  | [], _ => []
  | l :: ls, y =>
    l.words.map (fun p => ({ index := p.index, x := p.x, y := y } : Word)) ++
      stack t ls (y + t.lineHeight + if l.isEnd then t.paragraphBreak else 0)

/-- Modelled from the spec: the total extent of the stacked lines, with the height of
the final line and the paragraph breaks consumed before it. -/
def extent (t : WrappedText) : List Line → Int
  | [] => 0
  | [_] => t.lineHeight
  | l :: l2 :: ls =>
    t.lineHeight + (if l.isEnd then t.paragraphBreak else 0) + extent t (l2 :: ls)

/-- Modelled from the spec: the natural (pre-justification) width of the widest
line. -/
def longest : List Line → Int
  | [] => 0
  | l :: ls => max (lineWidth l.words) (longest ls)

/-- Modelled from the spec: the private `WrappedText::Wrap()` (body not among the
sources) lays out the stored text and records the words, the height and the longest
line width. -/
def WrapStored (t : WrappedText) : WrappedText :=
  { t with
    words := stack t (lines t) 0
    height := extent t (lines t)
    longestLineWidth := longest (naturalLines t) }

/-- Modelled from the spec: `WrappedText::Wrap(const std::string &)` (body not among
the sources) stores the text and wraps it. -/
def Wrap (t : WrappedText) (str : List Char) : WrappedText :=
  WrapStored { t with text := str }

/-- The getter `Height()`. -/
def Height (t : WrappedText) : Int := t.height

/-- The getter `LongestLineWidth()`. -/
def LongestLineWidth (t : WrappedText) : Int := t.longestLineWidth

/-! ## Reference readings used by the statements -/

/-- The measured width of a word: the sum of the advances of its characters. -/
def wordWidth (f : Font) (w : List Char) : Int := (w.map (charWidth f)).sum

/-- The pieces joined with one separator character between neighbours. -/
def joinWith (sep : Char) : List (List Char) → List Char
  | [] => []
  | [w] => w
  | w :: w2 :: r => w ++ sep :: joinWith sep (w2 :: r)

/-- The x of word number `k` of a line in the words of the specification for LEFT:
the sum of the widths of the words before it on the line plus one space width per
preceding gap (so 0 for the first word). -/
def leftFlushX (space : Int) (widths : List Int) (k : Nat) : Int :=
  (widths.take k).sum + k * space

/-- A character of a word: not a space, a tab or a line-break marker. -/
def IsWordChar (c : Char) : Prop := c ≠ ' ' ∧ c ≠ '\t' ∧ c ≠ '\n'

instance (c : Char) : Decidable (IsWordChar c) := by
  unfold IsWordChar; infer_instance

/-- What follows the first piece in `joinWith`: nothing, or the separator and the
remaining pieces joined. -/
def tailJoin (sep : Char) : List (List Char) → List Char
  | [] => []
  | v :: r => sep :: joinWith sep (v :: r)

/-- A text given by its paragraphs, each given by its words: the words of a paragraph
are joined by single spaces and the paragraphs by single line-break markers. -/
def spacedText (ps : List (List (List Char))) : List Char :=
  joinWith '\n' (ps.map (joinWith ' '))

/-- Every word of every paragraph is a non-empty run of word characters. -/
def SingleSpaced (ps : List (List (List Char))) : Prop :=
  ∀ ws ∈ ps, ∀ w ∈ ws, w ≠ [] ∧ ∀ c ∈ w, IsWordChar c

instance (ps : List (List (List Char))) : Decidable (SingleSpaced ps) := by
  unfold SingleSpaced; infer_instance

/-- The items of the words that follow the first word of a paragraph of single-spaced
words: a space and the word, for each of them; `j` is the offset after the word
before. -/
def spacedItems (f : Font) : List (List Char) → Nat → List Item
  | [], _ => []
  | v :: r, j =>
    Item.space :: Item.word (j + 1) (wordWidth f v) :: spacedItems f r (j + 1 + v.length)

/-- The items of a paragraph of single-spaced words that starts at offset `i`. -/
def paraItems (f : Font) : List (List Char) → Nat → List Item
  | [], _ => []
  | w :: r, i => Item.word i (wordWidth f w) :: spacedItems f r (i + w.length)

/-- Every word of the line sits at its `leftFlushX`. -/
def FlushLine (space : Int) (l : List Placed) : Prop :=
  ∀ (k : Nat) (p : Placed), l[k]? = some p →
    p.x = leftFlushX space (l.map Placed.width) k

/-- Every word of every line of `t` sits at its `leftFlushX`. -/
def LeftFlush (t : WrappedText) : Prop :=
  ∀ l ∈ lines t, FlushLine t.space l.words

/-- The widths of the words of each line. -/
def lineWidths (ls : List Line) : List (List Int) :=
  ls.map (fun l => l.words.map Placed.width)

/-- The text `K` that follows a paragraph: a word in progress is complete at its
start. -/
def ClosesWord (f : Font) (K : List Char) : Prop :=
  ∀ (j s : Nat) (a : Int), items f K j (some (s, a)) = Item.word s a :: items f K j none

/-- The items `KI` that follow a paragraph: they close the current line as the end of
the paragraph, and `rest` are the lines after it. -/
def ClosesLine (space tabWidth wrapWidth : Int) (KI : List Item) (rest : List Line) : Prop :=
  ∀ (x : Int) (l : List Placed), fill space tabWidth wrapWidth KI x l = ⟨l, true⟩ :: rest

/-- The greedy fill in the words of the specification, on the widths of the words of
one paragraph: a word is added to the current line `cur` while the cumulative width
(word widths plus one space width per gap) stays within the wrap width, the first
word of a line always; otherwise the line is closed and the word opens the next. -/
def greedyLines (wrapWidth space : Int) : List Int → List Int → List (List Int)
  | [], cur => [cur]
  | w :: ws, cur =>
    if cur.isEmpty || decide (cur.sum + cur.length * space + w ≤ wrapWidth) then
      greedyLines wrapWidth space ws (cur ++ [w])
    else cur :: greedyLines wrapWidth space ws [w]

/-- A scanned item whose width, if it is a word, is not negative. -/
def Item.NonNeg : Item → Prop
  | Item.word _ w => 0 ≤ w
  | _ => True

/-- The words of a line lie between 0 and the natural width of the line, which is
within the wrap width unless the line is a single word wider than the wrap width. -/
def Contained (W : Int) (l : List Placed) : Prop :=
  (∀ p ∈ l, 0 ≤ p.x ∧ 0 ≤ p.width ∧ p.x + p.width ≤ lineWidth l) ∧
  (lineWidth l ≤ W ∨ ∃ p, l = [p] ∧ W < p.width)

/-- A font in which every character is 10 pixels wide. -/
def tenPixelFont : Font := ⟨fun _ => some 10, 12, 5⟩

/-- The configuration of the specification's layout example: wrap width 100, space
width 5, two-letter words of 20 pixels; the tab width is 40. -/
def exampleText (a : Alignment) : WrappedText :=
  { font := some tenPixelFont, space := 5, wrapWidth := 100, tabWidth := 40,
    lineHeight := 14, paragraphBreak := 6, alignment := a }

/-- The state of the specification's scroll example: height 500, visible height 200,
nothing scrolled yet. -/
def exampleScroll : WrappedText := { height := 500, visibleHeight := 200 }

end WrappedText

/-! # Commands and key bindings (`source/Command.cpp`)

`Command.h` is not among the sources; the two data members of the class, the bit
mask `state` (a `uint64_t`) and the `turn` (a `double`), are taken from their use in
`Command.cpp`.  The code only copies the turn and tests it against zero, so the
`double` is modelled by a rational number. -/

/-- The class `Command`: the default constructor gives the empty command. -/
structure Command where
  state : Nat := 0
  turn : Rat := 0
  deriving DecidableEq, Repr

namespace Command

/-- The body of `Command::operator<`: commands are ordered by their bit mask alone. -/
def less (a b : Command) : Bool := decide (a.state < b.state)

/-- The order of `int` keys in a `std::map<int, _>`. -/
def intLess (a b : Int) : Bool := decide (a < b)

/-- The member `find` of `std::map`, the map being the list of its entries in key
order: the entry whose key is equivalent to `k` (neither is less than the other). -/
def mapFind {K V : Type} (lt : K → K → Bool) (k : K) (m : List (K × V)) : Option (K × V) :=
  m.find? (fun e => !lt k e.1 && !lt e.1 k)

/-- The assignment `m[k] = v` of `std::map`: a new entry is inserted at its place in
the key order; an entry with an equivalent key keeps its key and takes the value. -/
def mapAssign {K V : Type} (lt : K → K → Bool) (k : K) (v : V) : List (K × V) → List (K × V)
  | [] => [(k, v)]
  | e :: r =>
    if lt k e.1 then (k, v) :: e :: r
    else if lt e.1 k then e :: mapAssign lt k v r
    else (e.1, v) :: r

/-- The increment `++m[k]` of a `std::map<int, int>`: a missing entry starts at 0.  A
count is at most the number of commands that have a key, far below the range of
`int`. -/
def mapIncrement (k : Int) : List (Int × Int) → List (Int × Int)
  | [] => [(k, 1)]
  | e :: r =>
    if intLess k e.1 then (k, 1) :: e :: r
    else if intLess e.1 k then e :: mapIncrement k r
    else (e.1, e.2 + 1) :: r

/-- The private constructor `Command(uint64_t state)`. -/
def ofState (state : Nat) : Command := { state := state }

/-- The effect on the table `description` of the private constructor
`Command(uint64_t state, const string &text)`: a non-empty text is stored for the new
command. -/
def describe (d : List (Command × String)) (c : Command) (text : String) :
    List (Command × String) :=
  if text ≠ "" then mapAssign less c text d else d

/-- The constant `Command::NONE`. -/
def NONE : Command := ofState 0
/-- The constant `Command::MENU`. -/
def MENU : Command := ofState (1 <<< 0)
/-- The constant `Command::FORWARD`. -/
def FORWARD : Command := ofState (1 <<< 1)
/-- The constant `Command::LEFT`. -/
def LEFT : Command := ofState (1 <<< 2)
/-- The constant `Command::RIGHT`. -/
def RIGHT : Command := ofState (1 <<< 3)
/-- The constant `Command::BACK`. -/
def BACK : Command := ofState (1 <<< 4)
/-- The constant `Command::PRIMARY`. -/
def PRIMARY : Command := ofState (1 <<< 5)
/-- The constant `Command::SECONDARY`. -/
def SECONDARY : Command := ofState (1 <<< 6)
/-- The constant `Command::SELECT`. -/
def SELECT : Command := ofState (1 <<< 7)
/-- The constant `Command::LAND`. -/
def LAND : Command := ofState (1 <<< 8)
/-- The constant `Command::BOARD`. -/
def BOARD : Command := ofState (1 <<< 9)
/-- The constant `Command::HAIL`. -/
def HAIL : Command := ofState (1 <<< 10)
/-- The constant `Command::SCAN`. -/
def SCAN : Command := ofState (1 <<< 11)
/-- The constant `Command::JUMP`. -/
def JUMP : Command := ofState (1 <<< 12)
/-- The constant `Command::FLEET_JUMP`. -/
def FLEET_JUMP : Command := ofState (1 <<< 13)
/-- The constant `Command::TARGET`. -/
def TARGET : Command := ofState (1 <<< 14)
/-- The constant `Command::NEAREST`. -/
def NEAREST : Command := ofState (1 <<< 15)
/-- The constant `Command::DEPLOY`. -/
def DEPLOY : Command := ofState (1 <<< 16)
/-- The constant `Command::AFTERBURNER`. -/
def AFTERBURNER : Command := ofState (1 <<< 17)
/-- The constant `Command::CLOAK`. -/
def CLOAK : Command := ofState (1 <<< 18)
/-- The constant `Command::MAP`. -/
def MAP : Command := ofState (1 <<< 19)
/-- The constant `Command::INFO`. -/
def INFO : Command := ofState (1 <<< 20)
/-- The constant `Command::FULLSCREEN`. -/
def FULLSCREEN : Command := ofState (1 <<< 21)
/-- The constant `Command::FASTFORWARD`. -/
def FASTFORWARD : Command := ofState (1 <<< 22)
/-- The constant `Command::FIGHT`. -/
def FIGHT : Command := ofState (1 <<< 23)
/-- The constant `Command::GATHER`. -/
def GATHER : Command := ofState (1 <<< 24)
/-- The constant `Command::HOLD`. -/
def HOLD : Command := ofState (1 <<< 25)
/-- The constant `Command::AMMO`. -/
def AMMO : Command := ofState (1 <<< 26)
/-- The constant `Command::WAIT`. -/
def WAIT : Command := ofState (1 <<< 27)
/-- The constant `Command::STOP`. -/
def STOP : Command := ofState (1 <<< 28)
/-- The constant `Command::SHIFT`. -/
def SHIFT : Command := ofState (1 <<< 29)
/-- The constant `Command::MOUSE_TURNING_HOLD`. -/
def MOUSE_TURNING_HOLD : Command := ofState (1 <<< 30)
/-- The constant `Command::MOUSE_TURNING_TOGGLE`. -/
def MOUSE_TURNING_TOGGLE : Command := ofState (1 <<< 31)
/-- The constant `Command::MOVETOWARD`. -/
def MOVETOWARD : Command := ofState (1 <<< 32)

/-- The command enumeration at the top of `Command.cpp`, in the order of the
definitions, each constant with the descriptive string given to its constructor. -/
def enumeration : List (Command × String) :=
  [(NONE, ""), (MENU, "Show main menu"), (FORWARD, "Forward thrust"), (LEFT, "Turn left"),
   (RIGHT, "Turn right"), (BACK, "Reverse"), (PRIMARY, "Fire primary weapon"),
   (SECONDARY, "Fire secondary weapon"), (SELECT, "Select secondary weapon"),
   (LAND, "Land on planet / station"), (BOARD, "Board selected ship"),
   (HAIL, "Talk to selected ship"), (SCAN, "Scan selected ship"),
   (JUMP, "Initiate hyperspace jump"), (FLEET_JUMP, ""), (TARGET, "Select next ship"),
   (NEAREST, "Select nearest hostile ship"), (DEPLOY, "Deploy / recall fighters"),
   (AFTERBURNER, "Fire afterburner"), (CLOAK, "Toggle cloaking device"),
   (MAP, "View star map"), (INFO, "View player info"), (FULLSCREEN, "Toggle fullscreen"),
   (FASTFORWARD, "Toggle fast-forward"), (FIGHT, "Fleet: Fight my target"),
   (GATHER, "Fleet: Gather around me"), (HOLD, "Fleet: Hold position"),
   (AMMO, "Fleet: Toggle ammo usage"), (WAIT, ""), (STOP, "Stop"), (SHIFT, ""),
   (MOUSE_TURNING_HOLD, "Mouse turning (hold)"),
   (MOUSE_TURNING_TOGGLE, "Mouse turning (toggle)"), (MOVETOWARD, "")]

/-- The lookup table `description` once the constants of the enumeration have been
constructed. -/
def description : List (Command × String) :=
  enumeration.foldl (fun d e => describe d e.1 e.2) []

/-- The method `Command::Description`: the stored text of this command, the empty
string when there is none. -/
def Description (c : Command) : String :=
  match mapFind less c description with
  | none => ""
  | some e => e.2

/-- The function `Command::Get`: the first command of the table, in key order, that
has the given description; `Command::NONE` when there is none. -/
def Get (command_description : String) : Command :=
  match description.find? (fun e => command_description == e.2) with
  | some e => e.1
  | none => NONE

/-- The lookup tables of `Command.cpp` that the key bindings use.  `keyName` holds
what `SDL_GetKeyName` answered. -/
structure Tables where
  keyName : List (Command × String) := []
  commandForKeycode : List (Int × Command) := []
  keycodeForCommand : List (Command × Int) := []
  keycodeCount : List (Int × Int) := []
  deriving DecidableEq, Repr

/-- The loop that regenerates `commandForKeycode` from `keycodeForCommand`. -/
def regenerateCommands (entries : List (Command × Int)) : List (Int × Command) :=
  entries.foldl (fun m e => mapAssign intLess e.2 e.1 m) []

/-- The loop that regenerates `keycodeCount` from `keycodeForCommand`. -/
def regenerateCounts (entries : List (Command × Int)) : List (Int × Int) :=
  entries.foldl (fun m e => mapIncrement e.2 m) []

/-- The function `Command::SetKey`; `getKeyName` stands for `SDL_GetKeyName`. -/
def SetKey (getKeyName : Int → String) (s : Tables) (command : Command) (keycode : Int) :
    Tables :=
  let keycodeForCommand := mapAssign less command keycode s.keycodeForCommand
  { keyName := mapAssign less command (getKeyName keycode) s.keyName
    commandForKeycode := regenerateCommands keycodeForCommand
    keycodeForCommand := keycodeForCommand
    keycodeCount := regenerateCounts keycodeForCommand }

/-- The tables after a sequence of `SetKey` calls, starting with no key binding. -/
def afterSetKeys (getKeyName : Int → String) (calls : List (Command × Int)) : Tables :=
  calls.foldl (fun s e => SetKey getKeyName s e.1 e.2) {}

/-- The constructor `Command::Command(int keycode)`: whatever is mapped to the key
code, the empty command when nothing is. -/
def ofKeycode (s : Tables) (keycode : Int) : Command :=
  match mapFind intLess keycode s.commandForKeycode with
  | some e => e.2
  | none => {}

/-- The key code that `keycodeForCommand` holds for the command, if any. -/
def keycodeOf (s : Tables) (c : Command) : Option Int :=
  (mapFind less c s.keycodeForCommand).map Prod.snd

/-- The method `Command::HasConflict`. -/
def HasConflict (s : Tables) (c : Command) : Bool :=
  match mapFind less c s.keycodeForCommand with
  | none => false
  | some e =>
    match mapFind intLess e.2 s.keycodeCount with
    | none => false
    | some n => decide (n.2 > 1)

/-- The entries are in strictly increasing order of the bit masks of their keys. -/
def SortedKeys {V : Type} (m : List (Command × V)) : Prop :=
  m.Pairwise (fun a b => a.1.state < b.1.state)

/-- The state of the tables between two calls: `keycodeForCommand` is in key order and
the two other tables are what the regenerating loops make of it. -/
def Regenerated (s : Tables) : Prop :=
  SortedKeys s.keycodeForCommand ∧
  s.commandForKeycode = regenerateCommands s.keycodeForCommand ∧
  s.keycodeCount = regenerateCounts s.keycodeForCommand

/-- The count that `keycodeCount` holds for a key code, 0 when it has no entry. -/
def countOf (m : List (Int × Int)) (k : Int) : Int :=
  match mapFind intLess k m with
  | none => 0
  | some e => e.2

/-- The entries are in strictly increasing order of their `int` keys. -/
def SortedInts {V : Type} (m : List (Int × V)) : Prop :=
  m.Pairwise (fun a b => a.1 < b.1)

/-- A stand-in for `SDL_GetKeyName` in the examples. -/
def noKeyName : Int → String := fun _ => ""

/-- The complement `~x` of a `uint64_t`. -/
def not64 (x : Nat) : Nat := (2 ^ 64 - 1) ^^^ x

/-- The method `Command::Has`: the conversion of `state & command.state` to `bool`. -/
def Has (a command : Command) : Bool := decide (a.state &&& command.state ≠ 0)

/-- The method `Command::And`. -/
def And (a command : Command) : Command := ofState (a.state &&& command.state)

/-- The method `Command::AndNot`. -/
def AndNot (a command : Command) : Command := ofState (a.state &&& not64 command.state)

/-- The operator `Command::operator|=`: the new value of the left operand. -/
def orAssign (a command : Command) : Command :=
  { state := a.state ||| command.state
    turn := if command.turn ≠ 0 then command.turn else a.turn }

/-- The operator `Command::operator|`. -/
def or (a command : Command) : Command := orAssign a command

end Command

/-! # Dialogs (`source/Dialog.cpp`)

`Dialog.h` is not among the sources; the data members are taken from their use in
`Dialog.cpp`.  A `std::function` member is modelled by whether it holds a target,
the validation function by the function itself.  Calls that leave the dialog (the
callbacks, the UI stack, the SDL text input) are recorded as the list of effects of
a call. -/

namespace SDL

/-- The SDL key code of a key without a character: its scan code with bit 30 set
(`SDL_SCANCODE_TO_KEYCODE`). -/
def scancodeToKeycode (scancode : Int) : Int := scancode + 1073741824

/-- The key code `SDLK_RETURN`. -/
def SDLK_RETURN : Int := 13
/-- The key code `SDLK_ESCAPE`. -/
def SDLK_ESCAPE : Int := 27
/-- The key code `SDLK_BACKSPACE`. -/
def SDLK_BACKSPACE : Int := 8
/-- The key code `SDLK_TAB`. -/
def SDLK_TAB : Int := 9
/-- The key code `SDLK_DELETE`. -/
def SDLK_DELETE : Int := 127
/-- The key code `SDLK_RIGHT`. -/
def SDLK_RIGHT : Int := scancodeToKeycode 79
/-- The key code `SDLK_LEFT`. -/
def SDLK_LEFT : Int := scancodeToKeycode 80
/-- The key code `SDLK_DOWN`. -/
def SDLK_DOWN : Int := scancodeToKeycode 81
/-- The key code `SDLK_UP`. -/
def SDLK_UP : Int := scancodeToKeycode 82
/-- The key code `SDLK_KP_ENTER`. -/
def SDLK_KP_ENTER : Int := scancodeToKeycode 88
/-- The key code `SDLK_AC_BACK`. -/
def SDLK_AC_BACK : Int := scancodeToKeycode 270

/-- The modifier mask `KMOD_SHIFT`. -/
def KMOD_SHIFT : Nat := 0x0003
/-- The modifier mask `KMOD_CTRL`. -/
def KMOD_CTRL : Nat := 0x00C0
/-- The modifier mask `KMOD_GUI`. -/
def KMOD_GUI : Nat := 0x0C00
/-- The modifier mask `KMOD_CAPS`. -/
def KMOD_CAPS : Nat := 0x2000

end SDL

/-- What a call on a dialog does outside of the dialog, in the order of the calls. -/
inductive Effect where
  | callInt (value : Int)
  | callString (value : List Char)
  | callVoid
  | callBool (isOk : Bool)
  | stopTextInput
  | pop
  | pushMapDetailPanel
  deriving DecidableEq, Repr

/-- Modelled from the spec: the defaults that `SetFont` derives from the font for the
tab width, the line height and the paragraph break (the specification names them and
does not give their formulas). -/
structure FontDefaults where
  tabWidth : WrappedText.Font → Int
  lineHeight : WrappedText.Font → Int
  paragraphBreak : WrappedText.Font → Int

/-- What `Dialog.cpp` reads from outside of the sources: the table `SHIFT` of
`shift.h`, `Preferences::ScrollSpeed()`, the constants `Conversation::ACCEPT` and
`Conversation::DECLINE`, `std::stoi` (`none` when it throws), `Screen::Height()`, and
the font `FontSet::Get(14)` with the defaults `SetFont` derives from it. -/
structure Env where
  SHIFT : Int → Char
  scrollSpeed : Int
  ACCEPT : Int
  DECLINE : Int
  stoi : List Char → Option Int
  screenHeight : Int
  font : WrappedText.Font
  fontDefaults : FontDefaults

/-- The data members of `class Dialog` that `Dialog.cpp` uses, with `isInterruptible`
of its base class `Panel`; `hasSystem` and `hasPlayer` say whether the pointers
`system` and `player` are set. -/
structure Dialog where
  intFun : Bool := false
  stringFun : Bool := false
  voidFun : Bool := false
  boolFun : Bool := false
  validateFun : Option (List Char → Bool) := none
  canCancel : Bool := false
  okIsActive : Bool := true
  isMission : Bool := false
  isOkDisabled : Bool := false
  isWide : Bool := false
  allowsFastForward : Bool := false
  input : List Char := []
  text : WrappedText := {}
  height : Int := 0
  hasSystem : Bool := false
  hasPlayer : Bool := false
  isInterruptible : Bool := true

namespace WrappedText

/-- Modelled from the spec: `WrappedText::SetAlignment` (body not among the
sources). -/
def SetAlignment (t : WrappedText) (align : Alignment) : WrappedText :=
  { t with alignment := align }

/-- Modelled from the spec: `WrappedText::SetTruncate` (body not among the
sources). -/
def SetTruncate (t : WrappedText) (trunc : Truncate) : WrappedText :=
  { t with truncate := trunc }

/-- Modelled from the spec: `WrappedText::SetWrapWidth` (body not among the
sources). -/
def SetWrapWidth (t : WrappedText) (width : Int) : WrappedText :=
  { t with wrapWidth := width }

/-- Modelled from the spec: `WrappedText::SetFont` (body not among the sources) sets
the font and resets the tab width, the line height and the paragraph break to
font-derived defaults; the wrap width and the alignment are left alone. -/
def SetFont (t : WrappedText) (font : Font) (d : FontDefaults) : WrappedText :=
  { t with
    font := some font
    space := font.space
    tabWidth := d.tabWidth font
    lineHeight := d.lineHeight font
    paragraphBreak := d.paragraphBreak font }

end WrappedText

namespace Dialog

open SDL

/-- The constant `WIDTH`. -/
def WIDTH : Int := 250

/-- The constant `WIDE_WIDTH`. -/
def WIDE_WIDTH : Int := 450

/-- The table `KEY_MAP`: the numeric keypad keys with their ASCII values. -/
def KEY_MAP : List (Int × Char) :=
  [(scancodeToKeycode 98, '0'), (scancodeToKeycode 89, '1'), (scancodeToKeycode 90, '2'),
   (scancodeToKeycode 91, '3'), (scancodeToKeycode 92, '4'), (scancodeToKeycode 93, '5'),
   (scancodeToKeycode 94, '6'), (scancodeToKeycode 95, '7'), (scancodeToKeycode 96, '8'),
   (scancodeToKeycode 97, '9'), (scancodeToKeycode 199, '&'), (scancodeToKeycode 206, '@'),
   (scancodeToKeycode 188, 'a'), (scancodeToKeycode 189, 'b'), (scancodeToKeycode 190, 'c'),
   (scancodeToKeycode 191, 'd'), (scancodeToKeycode 192, 'e'), (scancodeToKeycode 193, 'f'),
   (scancodeToKeycode 203, ':'), (scancodeToKeycode 133, ','), (scancodeToKeycode 84, '/'),
   (scancodeToKeycode 103, '='), (scancodeToKeycode 207, '!'), (scancodeToKeycode 198, '>'),
   (scancodeToKeycode 204, '#'), (scancodeToKeycode 184, '\x7b'), (scancodeToKeycode 182, '('),
   (scancodeToKeycode 197, '<'), (scancodeToKeycode 86, '-'), (scancodeToKeycode 85, '*'),
   (scancodeToKeycode 196, '%'), (scancodeToKeycode 99, '.'), (scancodeToKeycode 87, '+'),
   (scancodeToKeycode 195, '^'), (scancodeToKeycode 185, '\x7d'), (scancodeToKeycode 183, ')'),
   (scancodeToKeycode 205, ' '), (scancodeToKeycode 201, '|')]

/-- The method `Dialog::Width`. -/
def Width (d : Dialog) : Int := if d.isWide then WIDE_WIDTH else WIDTH

/-- The method `Dialog::DoCallback`. -/
def DoCallback (env : Env) (d : Dialog) (isOk : Bool) : List Effect :=
  if d.isMission then
    if d.intFun then [Effect.callInt (if d.okIsActive then env.ACCEPT else env.DECLINE)]
    else []
  else
    (if d.intFun then
      match env.stoi d.input with
      | some n => [Effect.callInt n]
      | none => []
    else []) ++
    (if d.stringFun then [Effect.callString d.input] else []) ++
    (if d.voidFun then [Effect.callVoid] else []) ++
    (if d.boolFun then [Effect.callBool isOk] else [])

/-- The statement `if(validateFun) isOkDisabled = !validateFun(input);`. -/
def validate (d : Dialog) : Dialog :=
  match d.validateFun with
  | some f => { d with isOkDisabled := !f d.input }
  | none => d

/-- The character that a key press types in `Dialog::KeyDown`: the keypad character
or the key itself, shifted through the table `SHIFT` with a shift modifier, and a
lower-case letter turned to upper case with caps lock. -/
def typedChar (env : Env) (key : Int) (mod : Nat) : Char :=
  let ascii : Int :=
    match KEY_MAP.lookup key with
    | some ch => (ch.toNat : Int)
    | none => key
  let c : Char := if mod &&& KMOD_SHIFT ≠ 0 then env.SHIFT ascii else Char.ofNat ascii.toNat
  if mod &&& KMOD_CAPS ≠ 0 ∧ 'a' ≤ c ∧ c ≤ 'z' then Char.ofNat (c.toNat - 32) else c

/-- The test `it != KEY_MAP.end()` of `Dialog::KeyDown`. -/
def inKeyMap (key : Int) : Bool := (KEY_MAP.lookup key).isSome

/-- The local `isCloseRequest` of `Dialog::KeyDown`; 119 is the character `w`. -/
def isCloseRequest (key : Int) (mod : Nat) : Bool :=
  key == SDLK_ESCAPE || key == SDLK_AC_BACK ||
    (key == 119 && (mod &&& (KMOD_CTRL ||| KMOD_GUI)) != 0)

/-- The input after the character `c` has been typed (first branch of
`Dialog::KeyDown`): a string input takes every character, an integer input takes a
`0` only after other digits and the digits `1` to `9` always. -/
def typeInto (d : Dialog) (c : Char) : List Char :=
  if d.stringFun then d.input ++ [c]
  else if d.intFun && c == '0' && !d.input.isEmpty then d.input ++ [c]
  else if d.intFun && decide ('1' ≤ c) && decide (c ≤ '9') then d.input ++ [c]
  else d.input

/-- The shortcuts for "accept" and "decline" at the start of the accept / close branch
of `Dialog::KeyDown`; the characters `a` and `d` are 97 and 100. -/
def shortcuts (d : Dialog) (key : Int) (mod : Nat) : Dialog :=
  let d1 : Dialog :=
    if key == 97 || (!d.canCancel && isCloseRequest key mod) then
      { d with okIsActive := true }
    else d
  if key == 100 || (d1.canCancel && isCloseRequest key mod) then
    { d1 with okIsActive := false }
  else d1

/-- The rest of the accept / close branch of `Dialog::KeyDown`.  `DoCallback()`
without argument is called only where `boolFun` is not set, so that the default
value of `isOk`, which is in `Dialog.h`, is not read. -/
def acceptOrClose (env : Env) (d : Dialog) : Dialog × List Effect × Bool :=
  if d.boolFun then
    (d, DoCallback env d d.okIsActive ++ [Effect.pop], true)
  else if d.okIsActive || d.isMission then
    if !d.isOkDisabled then
      (d, DoCallback env d true ++
        (if d.intFun || d.stringFun then [Effect.stopTextInput] else []) ++
        [Effect.pop], true)
    else (d, [], true)
  else
    (d, (if d.intFun || d.stringFun then [Effect.stopTextInput] else []) ++
      [Effect.pop], true)

/-- The method `Dialog::KeyDown`: the dialog after the call, the effects of the call
and the value returned.  The character `m` is 109. -/
def KeyDown (env : Env) (d : Dialog) (key : Int) (mod : Nat) (command : Command)
    (_isNewPress : Bool) : Dialog × List Effect × Bool :=
  if (inKeyMap key || (decide (32 ≤ key) && decide (key ≤ 126))) && !d.isMission &&
      (d.intFun || d.stringFun) && !isCloseRequest key mod then
    (validate { d with input := typeInto d (typedChar env key mod) }, [], true)
  else if (key == SDLK_DELETE || key == SDLK_BACKSPACE) && !d.input.isEmpty then
    (validate { d with input := d.input.dropLast }, [], true)
  else if key == SDLK_TAB && d.canCancel then
    ({ d with okIsActive := !d.okIsActive }, [], true)
  else if key == SDLK_LEFT then
    ({ d with okIsActive := !d.canCancel }, [], true)
  else if key == SDLK_RIGHT then
    ({ d with okIsActive := true }, [], true)
  else if key == SDLK_UP then
    ({ d with text := d.text.DoScroll (-env.scrollSpeed) }, [], true)
  else if key == SDLK_DOWN then
    ({ d with text := d.text.DoScroll env.scrollSpeed }, [], true)
  else if key == SDLK_RETURN || key == SDLK_KP_ENTER || isCloseRequest key mod ||
      (d.isMission && (key == 97 || key == 100)) then
    acceptOrClose env (shortcuts d key mod)
  else if (key == 109 || command.Has Command.MAP) && d.hasSystem && d.hasPlayer then
    (d, [Effect.pushMapDetailPanel], true)
  else (d, [], false)

/-- A key press as it reaches `KeyDown`: key, modifiers, command, new press. -/
structure KeyEvent where
  key : Int
  mod : Nat
  command : Command
  isNewPress : Bool

/-- The dialog after a sequence of `KeyDown` calls. -/
def afterKeys (env : Env) (d : Dialog) (events : List KeyEvent) : Dialog :=
  events.foldl (fun d e => (KeyDown env d e.key e.mod e.command e.isNewPress).1) d

/-- An integer input without leading zero: empty, or decimal digits of which the first
is not `0`. -/
def IsIntInput (input : List Char) : Prop :=
  input = [] ∨ ((∀ c ∈ input, c.isDigit = true) ∧ input.head? ≠ some '0')

/-- The limit `Screen::Height() * 3 / 4` of `Dialog::Init`. -/
def maxHeight (env : Env) : Int := Int.tdiv (env.screenHeight * 3) 4

/-- The method `Dialog::Init`. -/
def Init (env : Env) (d : Dialog) (message : List Char) (truncate : WrappedText.Truncate)
    (canCancel isMission : Bool) : Dialog :=
  let d : Dialog :=
    { d with
      isInterruptible := isMission
      isMission := isMission
      canCancel := canCancel
      okIsActive := true
      isWide := false }
  let d : Dialog := { d with text := d.text.SetAlignment WrappedText.Alignment.JUSTIFIED }
  let d : Dialog := { d with text := d.text.SetWrapWidth (Width d - 20) }
  let d : Dialog := { d with text := d.text.SetFont env.font env.fontDefaults }
  let d : Dialog := { d with text := d.text.SetTruncate truncate }
  let d : Dialog := { d with text := d.text.Wrap message }
  let d : Dialog :=
    if d.text.Height > maxHeight env then
      let d : Dialog := { d with isWide := true }
      let d : Dialog := { d with text := d.text.SetWrapWidth (Width d - 20) }
      let d : Dialog := { d with text := d.text.Wrap message }
      if d.text.LongestLineWidth ≤ WIDTH then
        let d : Dialog := { d with isWide := false }
        let d : Dialog := { d with text := d.text.SetWrapWidth (Width d - 20) }
        let d : Dialog := { d with text := d.text.Wrap message }
        { d with text := d.text.SetVisibleHeight (maxHeight env) }
      else if d.text.Height > maxHeight env then
        { d with text := d.text.SetVisibleHeight (maxHeight env) }
      else d
    else d
  let height : Int :=
    10 + (d.text.VisibleHeight - 5) + 10 +
      30 * (if !d.isMission && (d.intFun || d.stringFun) then 1 else 0)
  { d with height := if height ≤ 80 then 0 else Int.tdiv (height - 40) 40 }

/-- The text of the dialog as `Init` first wraps it, at the narrow width. -/
def narrowText (env : Env) (d : Dialog) (message : List Char)
    (truncate : WrappedText.Truncate) : WrappedText :=
  ((((d.text.SetAlignment WrappedText.Alignment.JUSTIFIED).SetWrapWidth (WIDTH - 20)).SetFont
    env.font env.fontDefaults).SetTruncate truncate).Wrap message

/-- The text of the dialog as `Init` wraps it again at the wide width. -/
def wideText (env : Env) (d : Dialog) (message : List Char)
    (truncate : WrappedText.Truncate) : WrappedText :=
  ((narrowText env d message truncate).SetWrapWidth (WIDE_WIDTH - 20)).Wrap message

/-- An environment for the examples: a screen 400 pixels high and the 10-pixel
font with a line height of 14. -/
def exampleEnv : Env :=
  { SHIFT := fun n => Char.ofNat n.toNat, scrollSpeed := 60, ACCEPT := -1, DECLINE := -2,
    stoi := fun _ => none, screenHeight := 400, font := WrappedText.tenPixelFont,
    fontDefaults := ⟨fun f => 4 * f.space, fun _ => 14, fun _ => 6⟩ }

end Dialog

namespace WrappedText

/-! ## Scroll window: theorems -/

/-- C1: whatever offset is requested, after `SetScroll` the committed offset lies in
`[0, max(0, height - visibleHeight)]`, and it is 0 when the text is not taller than
the visible height.  `SetScroll` is a total function: it has no error result. -/
theorem SetScroll_committed_in_range (t : WrappedText) (offsetY : Int) :
    0 ≤ Scroll (SetScroll t offsetY) ∧
    Scroll (SetScroll t offsetY) ≤ max 0 (t.height - t.visibleHeight) ∧
    (t.height ≤ t.visibleHeight → Scroll (SetScroll t offsetY) = 0) := by
  unfold SetScroll Scroll Animate.value Animate.set
  split
  · refine ⟨le_refl _, le_max_left _ _, fun _ => rfl⟩
  · refine ⟨le_max_left _ _, ?_, ?_⟩
    · exact max_le (le_max_left _ _) (min_le_right _ _)
    · intro h
      have h0 : max 0 (t.height - t.visibleHeight) = 0 := max_eq_left (by omega)
      show max 0 (min offsetY (max 0 (t.height - t.visibleHeight))) = 0
      rw [h0]
      exact max_eq_left (min_le_right _ _)

/-- C1, an instance: height 150 within a visible height of 200, offset 1000 requested;
the committed offset is 0. -/
theorem SetScroll_committed_in_range_witness :
    (150 : Int) ≤ 200 ∧
    Scroll (SetScroll { exampleScroll with height := 150 } 1000) = 0 :=
  ⟨by decide,
    (SetScroll_committed_in_range { exampleScroll with height := 150 } 1000).2.2
      (by decide)⟩

/-- C2: `CanScrollDown()` is true exactly when clipping is enabled (the visible height
is not the sentinel -1) and the committed offset is below `height - visibleHeight`. -/
theorem CanScrollDown_iff (t : WrappedText) :
    CanScrollDown t = true ↔
      (t.visibleHeight ≠ -1 ∧ Scroll t < t.height - t.visibleHeight) := by
  simp [CanScrollDown, Scroll]

/-- C3: `CanScrollUp()` is true exactly when the committed offset is above 0. -/
theorem CanScrollUp_iff (t : WrappedText) : CanScrollUp t = true ↔ 0 < Scroll t := by
  simp [CanScrollUp, Scroll]

/-- C4: the default visible height is the sentinel -1, and with the sentinel the
committed offset is 0 after every `SetScroll` and every `DoScroll`, and
`CanScrollDown()` is false, before and after them, for every height and offset. -/
theorem unbounded_never_scrolls (t : WrappedText) (offsetY dY : Int)
    (h : t.visibleHeight = -1) :
    ({} : WrappedText).visibleHeight = -1 ∧
    Scroll (SetScroll t offsetY) = 0 ∧ Scroll (DoScroll t dY) = 0 ∧
    CanScrollDown t = false ∧ CanScrollDown (SetScroll t offsetY) = false ∧
    CanScrollDown (DoScroll t dY) = false := by
  simp [DoScroll, SetScroll, Scroll, CanScrollDown, Animate.value, Animate.set, h]

/-- C4, an instance: a text of height 500 with the default visible height, scrolled
by 1000. -/
theorem unbounded_never_scrolls_witness :
    Scroll (DoScroll { height := 500 } 1000) = 0 ∧
    CanScrollDown (DoScroll { height := 500 } 1000) = false :=
  ⟨(unbounded_never_scrolls { height := 500 } 0 1000 rfl).2.2.1,
    (unbounded_never_scrolls { height := 500 } 0 1000 rfl).2.2.2.2.2⟩

/-- C5: when the text is taller than a non-negative visible height and the current
offset plus the delta reaches `height - visibleHeight`, `DoScroll` commits exactly
`height - visibleHeight`; afterwards `CanScrollDown()` is false and `CanScrollUp()`
is true. -/
theorem DoScroll_past_end (t : WrappedText) (dY : Int)
    (hv : 0 ≤ t.visibleHeight) (hh : t.visibleHeight < t.height)
    (hd : t.height - t.visibleHeight ≤ Scroll t + dY) :
    Scroll (DoScroll t dY) = t.height - t.visibleHeight ∧
    CanScrollDown (DoScroll t dY) = false ∧ CanScrollUp (DoScroll t dY) = true := by
  have hne : ¬ t.visibleHeight = -1 := by omega
  have h1 : max 0 (t.height - t.visibleHeight) = t.height - t.visibleHeight :=
    max_eq_right (by omega)
  have h2 : min (t.scrollY.target + dY) (t.height - t.visibleHeight) =
      t.height - t.visibleHeight := min_eq_right (by simpa [Scroll, Animate.value] using hd)
  have hs : Scroll (DoScroll t dY) = t.height - t.visibleHeight := by
    simp only [DoScroll, SetScroll, Scroll, Animate.value, Animate.set, if_neg hne, h1, h2]
  have hvis : (DoScroll t dY).visibleHeight = t.visibleHeight := by
    simp only [DoScroll, SetScroll, if_neg hne]
  have hhei : (DoScroll t dY).height = t.height := by
    simp only [DoScroll, SetScroll, if_neg hne]
  refine ⟨hs, ?_, ?_⟩
  · have hs2 : (DoScroll t dY).scrollY.value = t.height - t.visibleHeight := hs
    simp [CanScrollDown, hs2, hvis, hhei]
  · have hs2 : (DoScroll t dY).scrollY.value = t.height - t.visibleHeight := hs
    simp only [CanScrollUp, hs2, decide_eq_true_eq]
    omega

/-- C5, the example of the specification: height 500, visible height 200,
`DoScroll(+1000)` commits 300. -/
theorem DoScroll_past_end_witness :
    Scroll (DoScroll exampleScroll 1000) = 300 ∧
    CanScrollDown (DoScroll exampleScroll 1000) = false ∧
    CanScrollUp (DoScroll exampleScroll 1000) = true :=
  DoScroll_past_end exampleScroll 1000 (by decide) (by decide) (by decide)

/-! ## Layout engine: the shape of the result -/

theorem lines_Wrap (t : WrappedText) (str : List Char) :
    lines (Wrap t str) = lines { t with text := str } := rfl

theorem mem_lines_iff (t : WrappedText) (l : Line) :
    l ∈ lines t ↔ ∃ n ∈ naturalLines t,
      l = ⟨AdjustLine t n.words (lineWidth n.words) n.isEnd, n.isEnd⟩ := by
  unfold lines
  rw [List.mem_map]
  constructor
  · rintro ⟨n, hn, rfl⟩
    exact ⟨n, hn, rfl⟩
  · rintro ⟨n, hn, rfl⟩
    exact ⟨n, hn, rfl⟩

theorem lines_left (t : WrappedText) (h : t.alignment = Alignment.LEFT) :
    lines t = naturalLines t := by
  unfold lines
  simp [AdjustLine, h]

theorem justify_length (s g : Int) (l : List Placed) (i : Nat) (b : Int) :
    (justify s g l i b).length = l.length := by
  induction l generalizing i b with
  | nil => rfl
  | cons p ps ih => simp [justify, ih]

theorem justify_getLast (s g : Int) (l : List Placed) (i : Nat) (b : Int) (p : Placed)
    (h : l.getLast? = some p) :
    (justify s g l i b).getLast? =
      some ⟨p.index,
        b + (wordsWidth l - p.width) + Int.tdiv (s * ((i + l.length - 1 : Nat) : Int)) g,
        p.width⟩ := by
  induction l generalizing i b with
  | nil => simp at h
  | cons q qs ih =>
    cases qs with
    | nil =>
      simp only [List.getLast?_singleton, Option.some.injEq] at h
      subst h
      simp [justify, wordsWidth]
    | cons r rs =>
      rw [List.getLast?_cons_cons] at h
      have := ih (i + 1) (b + q.width) h
      rw [justify]
      rw [justify] at this ⊢
      rw [List.getLast?_cons_cons, this]
      simp only [wordsWidth, List.map_cons, List.sum_cons, List.length_cons]
      congr 2
      have e : i + 1 + (rs.length + 1) - 1 = i + (rs.length + 1 + 1) - 1 := by omega
      rw [e]
      ring_nf

theorem AdjustLine_length (t : WrappedText) (l : List Placed) (w : Int) (e : Bool) :
    (AdjustLine t l w e).length = l.length := by
  unfold AdjustLine
  cases t.alignment <;> simp [shift]
  split
  · exact justify_length _ _ _ _ _
  · rfl

/-! ## Justification -/

/-- C6: with JUSTIFIED alignment, on every line that has at least two words and is
not the last line of its paragraph, the right edge of the rightmost word (its x plus
its measured width) is the wrap width; the equality is exact, so it holds up to any
rounding. -/
theorem justified_line_reaches_wrap_width (t : WrappedText) (str : List Char)
    (hal : t.alignment = Alignment.JUSTIFIED) :
    ∀ l ∈ lines (Wrap t str), l.isEnd = false → 2 ≤ l.words.length →
      ∀ p, l.words.getLast? = some p → p.x + p.width = t.wrapWidth := by
  intro l hl hend hlen p hp
  rw [lines_Wrap, mem_lines_iff] at hl
  obtain ⟨n, -, rfl⟩ := hl
  simp only at hend hlen hp
  rw [AdjustLine_length] at hlen
  have hcount : n.words.length > 1 := hlen
  simp only [AdjustLine, hal, hend, Bool.not_false, Bool.true_and, decide_eq_true_eq,
    hcount, if_true] at hp
  obtain ⟨q, hq⟩ : ∃ q, n.words.getLast? = some q := by
    cases hw : n.words.getLast? with
    | none => rw [List.getLast?_eq_none_iff] at hw; rw [hw] at hlen; simp at hlen
    | some q => exact ⟨q, rfl⟩
  rw [justify_getLast _ _ _ _ _ q hq] at hp
  simp only [Option.some.injEq] at hp
  subst hp
  have hg : ((n.words.length - 1 : Nat) : Int) ≠ 0 := by
    have : 0 < n.words.length - 1 := by omega
    exact_mod_cast this.ne'
  have e : 0 + n.words.length - 1 = n.words.length - 1 := by omega
  rw [e, Int.mul_tdiv_cancel _ hg]
  ring

/-- C6, the example of the specification: three 20-pixel words that are not the last
line of their paragraph, wrap width 100; the right edge of the third word is 100. -/
theorem justified_line_reaches_wrap_width_witness :
    (⟨[⟨0, 0, 20⟩, ⟨3, 40, 20⟩, ⟨6, 80, 20⟩], false⟩ : Line) ∈
      lines (Wrap (exampleText Alignment.JUSTIFIED) "AA BB CC DDDDDD".toList) ∧
    (⟨6, 80, 20⟩ : Placed).x + (⟨6, 80, 20⟩ : Placed).width =
      (exampleText Alignment.JUSTIFIED).wrapWidth :=
  ⟨by decide,
    justified_line_reaches_wrap_width (exampleText Alignment.JUSTIFIED)
      "AA BB CC DDDDDD".toList rfl ⟨[⟨0, 0, 20⟩, ⟨3, 40, 20⟩, ⟨6, 80, 20⟩], false⟩
      (by decide) rfl (by decide) ⟨6, 80, 20⟩ rfl⟩

/-- C7: with JUSTIFIED alignment, the layout has the same lines as under LEFT
alignment, and every line that is the last of its paragraph or has a single word
is, word by word, exactly the line of the LEFT layout. -/
theorem justified_last_line_as_left (t : WrappedText) (str : List Char)
    (hal : t.alignment = Alignment.JUSTIFIED) :
    (lines (Wrap t str)).length =
      (lines (Wrap { t with alignment := Alignment.LEFT } str)).length ∧
    ∀ (k : Nat) (lj ll : Line), (lines (Wrap t str))[k]? = some lj →
      (lines (Wrap { t with alignment := Alignment.LEFT } str))[k]? = some ll →
      (lj.isEnd = true ∨ lj.words.length = 1) →
      lj.words.map Placed.x = ll.words.map Placed.x ∧ lj = ll := by
  have hL : lines (Wrap { t with alignment := Alignment.LEFT } str) =
      naturalLines { t with text := str } :=
    lines_left { t with alignment := Alignment.LEFT, text := str } rfl
  have hJ : lines (Wrap t str) = (naturalLines { t with text := str }).map
      (fun n => ⟨AdjustLine t n.words (lineWidth n.words) n.isEnd, n.isEnd⟩) := rfl
  rw [hL, hJ]
  constructor
  · simp only [List.length_map]
  · intro k lj ll hj hl hcase
    rw [List.getElem?_map, hl] at hj
    simp only [Option.map_some', Option.some.injEq] at hj
    have hjust : lj = ll := by
      rw [← hj]
      rcases hcase with he | h1
      · rw [← hj] at he
        simp only at he
        cases ll
        simp only at he
        simp [AdjustLine, hal, he]
      · rw [← hj] at h1
        simp only at h1
        rw [AdjustLine_length] at h1
        simp [AdjustLine, hal, h1]
    rw [hjust]
    exact ⟨rfl, rfl⟩

/-- C7, an instance: the last line of the justified example paragraph (its single word
`DDDDDD`) is the line of the LEFT layout. -/
theorem justified_last_line_as_left_witness :
    (lines (Wrap (exampleText Alignment.JUSTIFIED) "AA BB CC DDDDDD".toList))[1]? =
      some ⟨[⟨9, 0, 60⟩], true⟩ ∧
    (lines (Wrap { (exampleText Alignment.JUSTIFIED) with alignment := Alignment.LEFT }
      "AA BB CC DDDDDD".toList))[1]? = some ⟨[⟨9, 0, 60⟩], true⟩ ∧
    (⟨[⟨9, 0, 60⟩], true⟩ : Line).words.map Placed.x = [0] :=
  ⟨by decide, by decide,
    ((justified_last_line_as_left (exampleText Alignment.JUSTIFIED) "AA BB CC DDDDDD".toList
      rfl).2 1 ⟨[⟨9, 0, 60⟩], true⟩ ⟨[⟨9, 0, 60⟩], true⟩ (by decide) (by decide)
      (Or.inl rfl)).1⟩

/-! ## The empty text -/

/-- C10: for every configuration and font, wrapping the empty string gives an empty
word list and `Height()` 0. -/
theorem Wrap_empty (t : WrappedText) :
    (Wrap t []).words = [] ∧ Height (Wrap t []) = 0 := by
  have h : lines { t with text := [] } = [] := by
    unfold lines naturalLines
    cases t.font <;> rfl
  constructor
  · show stack _ (lines { t with text := [] }) 0 = []
    rw [h]; rfl
  · show extent _ (lines { t with text := [] }) = 0
    rw [h]; rfl

/-! ## Containment -/

theorem charWidth_nonneg (f : Font) (c : Char) : 0 ≤ charWidth f c :=
  Int.natCast_nonneg _

theorem items_nonneg (f : Font) (cs : List Char) (i : Nat) (cur : Option (Nat × Int))
    (hc : ∀ s w, cur = some (s, w) → 0 ≤ w) :
    ∀ it ∈ items f cs i cur, Item.NonNeg it := by
  have hclose : ∀ it ∈ closeWord cur, Item.NonNeg it := by
    intro it hit
    cases cur with
    | none => simp [closeWord] at hit
    | some sw =>
      obtain ⟨s, w⟩ := sw
      simp only [closeWord, List.mem_singleton] at hit
      subst hit
      exact hc s w rfl
  induction cs generalizing i cur with
  | nil => simpa [items] using hclose
  | cons c cs ih =>
    have hnone : ∀ it ∈ items f cs (i + 1) none, Item.NonNeg it :=
      ih (i + 1) none (by simp) (by simp [closeWord])
    intro it hit
    unfold items at hit
    split at hit
    · rcases List.mem_append.1 hit with h | h
      · exact hclose it h
      · rcases List.mem_cons.1 h with h | h
        · subst h; trivial
        · exact hnone it h
    · split at hit
      · rcases List.mem_append.1 hit with h | h
        · exact hclose it h
        · rcases List.mem_cons.1 h with h | h
          · subst h; trivial
          · exact hnone it h
      · split at hit
        · rcases List.mem_append.1 hit with h | h
          · exact hclose it h
          · rcases List.mem_cons.1 h with h | h
            · subst h; trivial
            · exact hnone it h
        · cases cur with
          | none =>
            refine ih (i + 1) _ ?_ ?_ it hit
            · intro s w h
              simp only [Option.some.injEq, Prod.mk.injEq] at h
              rw [← h.2]; exact charWidth_nonneg f c
            · intro it hit
              simp only [closeWord, List.mem_singleton] at hit
              subst hit
              exact charWidth_nonneg f c
          | some sw =>
            obtain ⟨s0, w0⟩ := sw
            have h0 : 0 ≤ w0 := hc s0 w0 rfl
            refine ih (i + 1) _ ?_ ?_ it hit
            · intro s w h
              simp only [Option.some.injEq, Prod.mk.injEq] at h
              rw [← h.2]; exact add_nonneg h0 (charWidth_nonneg f c)
            · intro it hit
              simp only [closeWord, List.mem_singleton] at hit
              subst hit
              exact add_nonneg h0 (charWidth_nonneg f c)

theorem lineWidth_nil : lineWidth [] = 0 := rfl

theorem lineWidth_concat (l : List Placed) (q : Placed) :
    lineWidth (l ++ [q]) = q.x + q.width := by
  simp [lineWidth, List.getLast?_concat]

theorem lineWidth_singleton (q : Placed) : lineWidth [q] = q.x + q.width := rfl

theorem tabStop_ge (tab x : Int) (hx : 0 ≤ x) : x ≤ tabStop tab x := by
  unfold tabStop
  split
  · rename_i h
    rw [Int.tdiv_eq_ediv hx (le_of_lt h)]
    exact le_of_lt (Int.lt_ediv_add_one_mul_self x h)
  · exact le_refl _

theorem fill_contained (space tab W : Int) (hs : 0 ≤ space) (hW : 0 < W)
    (its : List Item) (x : Int) (l : List Placed)
    (hits : ∀ it ∈ its, Item.NonNeg it) (hx : 0 ≤ x) (hl : Contained W l)
    (hpen : lineWidth l ≤ x) :
    ∀ ln ∈ fill space tab W its x l, Contained W ln.words := by
  induction its generalizing x l with
  | nil =>
    intro ln hln
    simp only [fill, List.mem_singleton] at hln
    subst hln; exact hl
  | cons it its ih =>
    have hrest : ∀ it ∈ its, Item.NonNeg it := fun a ha => hits a (List.mem_cons_of_mem _ ha)
    have hnew : ∀ (i : Nat) (w : Int), 0 ≤ w → Contained W [⟨i, 0, w⟩] := by
      intro i w hw
      refine ⟨?_, ?_⟩
      · intro p hp
        simp only [List.mem_singleton] at hp
        subst hp
        simp [lineWidth_singleton, hw]
      · rcases le_or_lt w W with h | h
        · left; simp [lineWidth_singleton, h]
        · right; exact ⟨_, rfl, h⟩
    intro ln hln
    cases it with
    | space =>
      simp only [fill] at hln
      exact ih (x + space) l hrest (by omega) hl (by omega) ln hln
    | tab =>
      simp only [fill] at hln
      have := tabStop_ge tab x hx
      exact ih (tabStop tab x) l hrest (by omega) hl (by omega) ln hln
    | newline =>
      simp only [fill, List.mem_cons] at hln
      rcases hln with h | h
      · subst h; exact hl
      · refine ih 0 [] hrest (le_refl _) ⟨by simp, Or.inl ?_⟩ (by simp [lineWidth_nil]) ln h
        rw [lineWidth_nil]; omega
    | word i w =>
      have hw : 0 ≤ w := hits (Item.word i w) (List.mem_cons_self _ _)
      simp only [fill] at hln
      split at hln
      · split at hln
        · exact ih w [⟨i, 0, w⟩] hrest hw (hnew i w hw) (by simp [lineWidth_singleton]) ln hln
        · rcases List.mem_cons.1 hln with h | h
          · subst h; exact hl
          · exact ih w [⟨i, 0, w⟩] hrest hw (hnew i w hw) (by simp [lineWidth_singleton]) ln h
      · rename_i hfit
        refine ih (x + w) (l ++ [⟨i, x, w⟩]) hrest (by omega) ⟨?_, Or.inl ?_⟩ ?_ ln hln
        · intro p hp
          rw [lineWidth_concat]
          rcases List.mem_append.1 hp with h | h
          · have := hl.1 p h
            simp only
            omega
          · simp only [List.mem_singleton] at h
            subst h
            simp only
            omega
        · rw [lineWidth_concat]; simp only; omega
        · rw [lineWidth_concat]

theorem naturalLines_contained (t : WrappedText) (hs : 0 ≤ t.space) (hW : 0 < t.wrapWidth) :
    ∀ n ∈ naturalLines t, Contained t.wrapWidth n.words := by
  intro n hn
  unfold naturalLines at hn
  cases hf : t.font with
  | none => simp [hf] at hn
  | some f =>
    simp only [hf] at hn
    split at hn
    · simp at hn
    · refine fill_contained t.space t.tabWidth t.wrapWidth hs hW _ 0 [] ?_ (le_refl _)
        ⟨by simp, Or.inl ?_⟩ (by simp [lineWidth_nil]) n hn
      · exact items_nonneg f t.text 0 none (by simp)
      · rw [lineWidth_nil]; omega

theorem shift_contained (W d : Int) (l : List Placed) (hl : Contained W l)
    (hd0 : 0 ≤ d) (hd : lineWidth l ≤ W → d ≤ W - lineWidth l)
    (hnot : ¬ ∃ p, shift d l = [p] ∧ W < p.width) :
    ∀ p ∈ shift d l, 0 ≤ p.x ∧ p.x + p.width ≤ W := by
  have hfit : lineWidth l ≤ W := by
    rcases hl.2 with h | ⟨q, hq, hwide⟩
    · exact h
    · exact absurd ⟨⟨q.index, q.x + d, q.width⟩, by simp [shift, hq], hwide⟩ hnot
  intro p hp
  simp only [shift, List.mem_map] at hp
  obtain ⟨q, hq, rfl⟩ := hp
  have := hl.1 q hq
  have := hd hfit
  simp only
  omega

/-- C8: with LEFT, RIGHT or CENTER alignment, a positive wrap width and a space width
that is not negative, every word on a line that is not a single word wider than the
wrap width satisfies `x ≥ 0` and `x + wordWidth ≤ wrapWidth`. -/
theorem aligned_words_contained (t : WrappedText) (str : List Char)
    (hs : 0 ≤ t.space) (hW : 0 < t.wrapWidth)
    (hal : t.alignment ≠ Alignment.JUSTIFIED) :
    ∀ l ∈ lines (Wrap t str), (¬ ∃ p, l.words = [p] ∧ t.wrapWidth < p.width) →
      ∀ p ∈ l.words, 0 ≤ p.x ∧ p.x + p.width ≤ t.wrapWidth := by
  intro l hl hnot
  rw [lines_Wrap, mem_lines_iff] at hl
  obtain ⟨n, hn, rfl⟩ := hl
  have hc : Contained t.wrapWidth n.words :=
    naturalLines_contained { t with text := str } hs hW n hn
  have h0 : shift 0 n.words = n.words := by simp [shift]
  simp only at hnot ⊢
  cases ha : t.alignment with
  | JUSTIFIED => exact absurd ha hal
  | LEFT =>
    simp only [AdjustLine, ha] at hnot ⊢
    rw [← h0] at hnot ⊢
    exact shift_contained _ 0 _ hc (le_refl _) (fun h => by omega) hnot
  | RIGHT =>
    simp only [AdjustLine, ha] at hnot ⊢
    rcases le_or_lt (lineWidth n.words) t.wrapWidth with hfit | hwide
    · exact shift_contained _ _ _ hc (by omega) (fun _ => le_refl _) hnot
    · rcases hc.2 with h | ⟨q, hq, hq2⟩
      · omega
      · exact absurd ⟨⟨q.index, q.x + (t.wrapWidth - lineWidth n.words), q.width⟩,
          by simp [shift, hq], hq2⟩ hnot
  | CENTER =>
    simp only [AdjustLine, ha] at hnot ⊢
    rcases le_or_lt (lineWidth n.words) t.wrapWidth with hfit | hwide
    · have hnn : 0 ≤ t.wrapWidth - lineWidth n.words := by omega
      have e := Int.tdiv_eq_ediv hnn (by norm_num : (0 : Int) ≤ 2)
      refine shift_contained _ _ _ hc (by rw [e]; omega) (fun _ => by rw [e]; omega) hnot
    · rcases hc.2 with h | ⟨q, hq, hq2⟩
      · omega
      · exact absurd ⟨⟨q.index, q.x + Int.tdiv (t.wrapWidth - lineWidth n.words) 2, q.width⟩,
          by simp [shift, hq], hq2⟩ hnot

/-- C8, an instance: the centred layout of the example text; its first line holds four
words and the last of them ends at 97 of 100. -/
theorem aligned_words_contained_witness :
    (⟨[⟨0, 2, 20⟩, ⟨3, 27, 20⟩, ⟨6, 52, 20⟩, ⟨9, 77, 20⟩], false⟩ : Line) ∈
      lines (Wrap (exampleText Alignment.CENTER) "AA BB CC DD EE".toList) ∧
    (0 ≤ (⟨9, 77, 20⟩ : Placed).x ∧
      (⟨9, 77, 20⟩ : Placed).x + (⟨9, 77, 20⟩ : Placed).width ≤
        (exampleText Alignment.CENTER).wrapWidth) :=
  ⟨by decide,
    aligned_words_contained (exampleText Alignment.CENTER) "AA BB CC DD EE".toList
      (by decide) (by decide) (by decide)
      ⟨[⟨0, 2, 20⟩, ⟨3, 27, 20⟩, ⟨6, 52, 20⟩, ⟨9, 77, 20⟩], false⟩ (by decide)
      (by simp) ⟨9, 77, 20⟩ (by decide)⟩

/-! ## LEFT alignment -/

theorem joinWith_cons (sep : Char) (w : List Char) (r : List (List Char)) :
    joinWith sep (w :: r) = w ++ tailJoin sep r := by
  cases r with
  | nil => simp [joinWith, tailJoin]
  | cons v r => rfl

theorem tailJoin_cons (sep : Char) (v : List Char) (r : List (List Char)) :
    tailJoin sep (v :: r) = sep :: (v ++ tailJoin sep r) := by
  rw [← joinWith_cons]; rfl

theorem items_word_ext (f : Font) (w rest : List Char) (i s : Nat) (a : Int)
    (hw : ∀ c ∈ w, IsWordChar c) :
    items f (w ++ rest) i (some (s, a)) =
      items f rest (i + w.length) (some (s, a + wordWidth f w)) := by
  induction w generalizing i a with
  | nil => simp [wordWidth]
  | cons c cs ih =>
    obtain ⟨h1, h2, h3⟩ := hw c (List.mem_cons_self _ _)
    have hcs : ∀ c ∈ cs, IsWordChar c := fun d hd => hw d (List.mem_cons_of_mem _ hd)
    rw [List.cons_append, items, if_neg h1, if_neg h2, if_neg h3]
    rw [ih (i + 1) (a + charWidth f c) hcs]
    simp only [wordWidth, List.map_cons, List.sum_cons, List.length_cons]
    rw [show i + 1 + cs.length = i + (cs.length + 1) by omega, add_assoc]

theorem items_word (f : Font) (w rest : List Char) (i : Nat)
    (hne : w ≠ []) (hw : ∀ c ∈ w, IsWordChar c) :
    items f (w ++ rest) i none =
      items f rest (i + w.length) (some (i, wordWidth f w)) := by
  cases w with
  | nil => exact absurd rfl hne
  | cons c cs =>
    obtain ⟨h1, h2, h3⟩ := hw c (List.mem_cons_self _ _)
    have hcs : ∀ c ∈ cs, IsWordChar c := fun d hd => hw d (List.mem_cons_of_mem _ hd)
    rw [List.cons_append, items, if_neg h1, if_neg h2, if_neg h3]
    rw [items_word_ext f cs rest (i + 1) i _ hcs]
    simp only [wordWidth, List.map_cons, List.sum_cons, List.length_cons]
    rw [show i + 1 + cs.length = i + (cs.length + 1) by omega]

theorem closesWord_tailJoin (f : Font) (r : List (List Char)) :
    ClosesWord f (tailJoin '\n' r) := by
  intro j s a
  cases r with
  | nil => simp [tailJoin, items, closeWord]
  | cons v r =>
    simp only [tailJoin]
    rw [items, items]
    simp [closeWord]

theorem items_tail (f : Font) (K : List Char) (hK : ClosesWord f K)
    (r : List (List Char)) (j s : Nat) (a : Int)
    (hr : ∀ w ∈ r, w ≠ [] ∧ ∀ c ∈ w, IsWordChar c) :
    items f (tailJoin ' ' r ++ K) j (some (s, a)) =
      Item.word s a ::
        (spacedItems f r j ++ items f K (j + (tailJoin ' ' r).length) none) := by
  induction r generalizing j s a with
  | nil => simpa [tailJoin, spacedItems] using hK j s a
  | cons v r ih =>
    obtain ⟨hne, hv⟩ := hr v (List.mem_cons_self _ _)
    have hr2 : ∀ w ∈ r, w ≠ [] ∧ ∀ c ∈ w, IsWordChar c :=
      fun w hw => hr w (List.mem_cons_of_mem _ hw)
    rw [tailJoin_cons, List.cons_append, List.append_assoc, items, if_pos rfl]
    show Item.word s a :: Item.space :: _ = _
    rw [items_word f v _ (j + 1) hne hv, ih (j + 1 + v.length) (j + 1) _ hr2]
    simp only [spacedItems, List.cons_append, List.length_cons, List.length_append]
    rw [show j + 1 + v.length + (tailJoin ' ' r).length =
      j + (v.length + (tailJoin ' ' r).length + 1) by omega]

theorem items_para (f : Font) (K : List Char) (hK : ClosesWord f K)
    (ws : List (List Char)) (i : Nat)
    (hws : ∀ w ∈ ws, w ≠ [] ∧ ∀ c ∈ w, IsWordChar c) :
    items f (joinWith ' ' ws ++ K) i none =
      paraItems f ws i ++ items f K (i + (joinWith ' ' ws).length) none := by
  cases ws with
  | nil => simp [joinWith, paraItems]
  | cons w r =>
    obtain ⟨hne, hw⟩ := hws w (List.mem_cons_self _ _)
    have hr : ∀ w ∈ r, w ≠ [] ∧ ∀ c ∈ w, IsWordChar c :=
      fun w hw => hws w (List.mem_cons_of_mem _ hw)
    rw [joinWith_cons, List.append_assoc, items_word f w _ i hne hw,
      items_tail f K hK r _ _ _ hr]
    simp only [paraItems, List.cons_append, List.length_append, add_assoc]

theorem flushLine_nil (space : Int) : FlushLine space [] := by
  intro k p h
  simp at h

theorem flushLine_singleton (space : Int) (i : Nat) (w : Int) :
    FlushLine space [⟨i, 0, w⟩] := by
  intro k p h
  cases k with
  | zero =>
    simp only [List.getElem?_cons_zero, Option.some.injEq] at h
    subst h
    simp [leftFlushX]
  | succ k => simp at h

theorem flushLine_concat (space : Int) (l : List Placed) (q : Placed)
    (hl : FlushLine space l)
    (hq : q.x = (l.map Placed.width).sum + l.length * space) :
    FlushLine space (l ++ [q]) := by
  intro k p h
  rcases Nat.lt_or_ge k l.length with hk | hk
  · rw [List.getElem?_append_left hk] at h
    rw [hl k p h]
    simp only [leftFlushX, List.map_append]
    rw [List.take_append_of_le_length (by simpa using hk.le)]
  · rw [List.getElem?_append_right hk] at h
    have hk0 : k - l.length = 0 := by
      by_contra hne
      obtain ⟨m, hm⟩ := Nat.exists_eq_succ_of_ne_zero hne
      rw [hm] at h
      simp at h
    rw [hk0] at h
    simp only [List.getElem?_cons_zero, Option.some.injEq] at h
    subst h
    have hkl : k = l.length := by omega
    subst hkl
    simp only [leftFlushX, List.map_append]
    rw [List.take_append_of_le_length (by simp), List.take_of_length_le (by simp)]
    exact hq

theorem fill_spaced (f : Font) (space tab W : Int) (KI : List Item) (rest : List Line)
    (hK : ClosesLine space tab W KI rest)
    (r : List (List Char)) (j : Nat) (x : Int) (l : List Placed)
    (hne : l ≠ []) (hx : x = (l.map Placed.width).sum + ((l.length : Int) - 1) * space)
    (hl : FlushLine space l) :
    (∀ ln ∈ fill space tab W (spacedItems f r j ++ KI) x l,
      FlushLine space ln.words ∨ ln ∈ rest) ∧
    lineWidths (fill space tab W (spacedItems f r j ++ KI) x l) =
      greedyLines W space (r.map (wordWidth f)) (l.map Placed.width) ++ lineWidths rest := by
  induction r generalizing j x l with
  | nil =>
    simp only [spacedItems, List.nil_append, hK x l, List.map_nil, greedyLines]
    refine ⟨?_, by simp [lineWidths]⟩
    intro ln hln
    rcases List.mem_cons.1 hln with h | h
    · subst h; exact Or.inl hl
    · exact Or.inr h
  | cons v r ih =>
    have hemp : l.isEmpty = false := by
      cases l with
      | nil => exact absurd rfl hne
      | cons a b => rfl
    have hemp2 : (l.map Placed.width).isEmpty = false := by
      cases l with
      | nil => exact absurd rfl hne
      | cons a b => rfl
    simp only [spacedItems, List.cons_append, fill, List.map_cons, greedyLines, hemp, hemp2,
      Bool.false_or, List.length_map]
    by_cases hfit : x + space + wordWidth f v > W
    · have hnfit : ¬ ((l.map Placed.width).sum + (l.length : Int) * space + wordWidth f v ≤ W) := by
        rw [hx] at hfit
        intro hc
        have : (List.map Placed.width l).sum + ((l.length : Int) - 1) * space + space =
            (List.map Placed.width l).sum + (l.length : Int) * space := by ring
        omega
      have ih' := ih (j + 1 + v.length) (wordWidth f v) [⟨j + 1, 0, wordWidth f v⟩]
        (by simp) (by simp) (flushLine_singleton space _ _)
      simp only [if_pos hfit, decide_eq_true_eq, if_neg hnfit, Bool.false_eq_true, if_false]
      refine ⟨?_, ?_⟩
      · intro ln hln
        rcases List.mem_cons.1 hln with h | h
        · subst h; exact Or.inl hl
        · exact ih'.1 ln h
      · simp only [lineWidths, List.map_cons, List.cons_append, List.cons.injEq, true_and]
        exact ih'.2
    · have hyes : (l.map Placed.width).sum + (l.length : Int) * space + wordWidth f v ≤ W := by
        rw [hx] at hfit
        have : (List.map Placed.width l).sum + ((l.length : Int) - 1) * space + space =
            (List.map Placed.width l).sum + (l.length : Int) * space := by ring
        omega
      have hq : x + space = (l.map Placed.width).sum + (l.length : Int) * space := by
        rw [hx]; ring
      have ih' := ih (j + 1 + v.length) (x + space + wordWidth f v)
        (l ++ [⟨j + 1, x + space, wordWidth f v⟩]) (by simp)
        (by simp only [List.map_append, List.sum_append, List.length_append, List.map_cons,
              List.map_nil, List.sum_cons, List.sum_nil, List.length_singleton]
            rw [hx]; push_cast; ring)
        (flushLine_concat space l _ hl hq)
      simp only [if_neg hfit, decide_eq_true_eq, if_pos hyes, if_true]
      simpa using ih'

theorem fill_para (f : Font) (space tab W : Int) (KI : List Item) (rest : List Line)
    (hK : ClosesLine space tab W KI rest) (ws : List (List Char)) (i : Nat) :
    (∀ ln ∈ fill space tab W (paraItems f ws i ++ KI) 0 [],
      FlushLine space ln.words ∨ ln ∈ rest) ∧
    lineWidths (fill space tab W (paraItems f ws i ++ KI) 0 []) =
      greedyLines W space (ws.map (wordWidth f)) [] ++ lineWidths rest := by
  cases ws with
  | nil =>
    simp only [paraItems, List.nil_append, hK 0 [], List.map_nil, greedyLines]
    refine ⟨?_, by simp [lineWidths]⟩
    intro ln hln
    rcases List.mem_cons.1 hln with h | h
    · subst h; exact Or.inl (flushLine_nil space)
    · exact Or.inr h
  | cons w r =>
    have h := fill_spaced f space tab W KI rest hK r (i + w.length) (wordWidth f w)
      [⟨i, 0, wordWidth f w⟩] (by simp) (by simp) (flushLine_singleton space _ _)
    have e : fill space tab W (paraItems f (w :: r) i ++ KI) 0 [] =
        fill space tab W (spacedItems f r (i + w.length) ++ KI) (wordWidth f w)
          [⟨i, 0, wordWidth f w⟩] := by
      simp only [paraItems, List.cons_append, fill]
      split <;> simp
    rw [e]
    simpa [greedyLines] using h

theorem fill_text (f : Font) (space tab W : Int) (ps : List (List (List Char)))
    (p : List (List Char)) (i : Nat) (hps : SingleSpaced (p :: ps)) :
    (∀ ln ∈ fill space tab W (items f (spacedText (p :: ps)) i none) 0 [],
      FlushLine space ln.words) ∧
    lineWidths (fill space tab W (items f (spacedText (p :: ps)) i none) 0 []) =
      (p :: ps).flatMap (fun ws => greedyLines W space (ws.map (wordWidth f)) []) := by
  induction ps generalizing p i with
  | nil =>
    have hp := hps p (List.mem_cons_self _ _)
    have e : spacedText [p] = joinWith ' ' p ++ [] := by simp [spacedText, joinWith]
    have hK : ClosesWord f [] := by
      intro j s a; simp [items, closeWord]
    rw [e, items_para f [] hK p i hp]
    have hfill := fill_para f space tab W (items f [] (i + (joinWith ' ' p).length) none) []
      (fun x l => by simp [items, closeWord, fill]) p i
    refine ⟨?_, by simpa [lineWidths] using hfill.2⟩
    intro ln hln
    rcases hfill.1 ln hln with h | h
    · exact h
    · simp at h
  | cons p2 ps ih =>
    have hp := hps p (List.mem_cons_self _ _)
    have hps2 : SingleSpaced (p2 :: ps) := fun ws hws => hps ws (List.mem_cons_of_mem _ hws)
    have e : spacedText (p :: p2 :: ps) = joinWith ' ' p ++ '\n' :: spacedText (p2 :: ps) := by
      simp [spacedText, joinWith]
    have hK : ClosesWord f ('\n' :: spacedText (p2 :: ps)) := by
      intro j s a
      rw [items, items]
      simp [closeWord]
    have hnl : ∀ j, items f ('\n' :: spacedText (p2 :: ps)) j none =
        Item.newline :: items f (spacedText (p2 :: ps)) (j + 1) none := by
      intro j
      rw [items]
      simp [closeWord]
    rw [e, items_para f _ hK p i hp, hnl]
    have ih' := ih p2 (i + (joinWith ' ' p).length + 1) hps2
    have hfill := fill_para f space tab W
      (Item.newline :: items f (spacedText (p2 :: ps)) (i + (joinWith ' ' p).length + 1) none)
      (fill space tab W
        (items f (spacedText (p2 :: ps)) (i + (joinWith ' ' p).length + 1) none) 0 [])
      (fun x l => by simp [fill]) p i
    refine ⟨?_, ?_⟩
    · intro ln hln
      rcases hfill.1 ln hln with h | h
      · exact h
      · exact ih'.1 ln h
    · rw [hfill.2, ih'.2]
      simp [List.flatMap_cons]

/-- C9 as amended: under LEFT alignment, for a non-empty text whose paragraphs consist
of words separated by single spaces (no tab, no leading, trailing or repeated space), each
word's x on its line is the sum of the widths of the words before it on that line
plus one space width per preceding gap, the first word at x = 0, and the lines are
those of the greedy fill: words are added to a line while the cumulative width
stays within the wrap width. -/
theorem left_flush_single_spaced (t : WrappedText) (f : Font)
    (ps : List (List (List Char))) (hf : t.font = some f)
    (hal : t.alignment = Alignment.LEFT) (hps : SingleSpaced ps)
    (hne : spacedText ps ≠ []) :
    LeftFlush (Wrap t (spacedText ps)) ∧
    lineWidths (lines (Wrap t (spacedText ps))) =
      ps.flatMap (fun ws => greedyLines t.wrapWidth t.space (ws.map (wordWidth f)) []) := by
  have hlines : lines (Wrap t (spacedText ps)) =
      fill t.space t.tabWidth t.wrapWidth (items f (spacedText ps) 0 none) 0 [] := by
    rw [lines_Wrap, lines_left { t with text := spacedText ps } hal]
    unfold naturalLines
    simp only [hf]
    rw [if_neg]
    simpa using hne
  cases ps with
  | nil => exact absurd rfl hne
  | cons p ps =>
    have h := fill_text f t.space t.tabWidth t.wrapWidth ps p 0 hps
    refine ⟨?_, ?_⟩
    · intro l hl
      rw [hlines] at hl
      exact h.1 l hl
    · rw [hlines]
      exact h.2

/-- C9, the example of the specification: wrap width 100, space width 5, three
20-pixel words; one line with the words at x = 0, 25 and 50. -/
theorem left_flush_single_spaced_witness :
    lines (Wrap (exampleText Alignment.LEFT)
      (spacedText [["AA".toList, "BB".toList, "CC".toList]])) =
      [⟨[⟨0, 0, 20⟩, ⟨3, 25, 20⟩, ⟨6, 50, 20⟩], true⟩] ∧
    LeftFlush (Wrap (exampleText Alignment.LEFT)
      (spacedText [["AA".toList, "BB".toList, "CC".toList]])) ∧
    lineWidths (lines (Wrap (exampleText Alignment.LEFT)
      (spacedText [["AA".toList, "BB".toList, "CC".toList]]))) = [[20, 20, 20]] :=
  ⟨by decide,
    left_flush_single_spaced (exampleText Alignment.LEFT) tenPixelFont
      [["AA".toList, "BB".toList, "CC".toList]] rfl rfl (by decide) (by decide)⟩

/-- C9 fails as stated: with a tab width of 40, space width 5 and 20-pixel words, the
text `AA<tab>BB` puts `BB` at x = 40, the next tab stop, and not at 20 + 5 = 25. -/
theorem tab_breaks_left_flush :
    lines (Wrap (exampleText Alignment.LEFT) ['A', 'A', '\t', 'B', 'B']) =
      [⟨[⟨0, 0, 20⟩, ⟨3, 40, 20⟩], true⟩] ∧
    leftFlushX 5 [20, 20] 1 = 25 ∧
    ¬ LeftFlush (Wrap (exampleText Alignment.LEFT) ['A', 'A', '\t', 'B', 'B']) := by
  refine ⟨by decide, by decide, ?_⟩
  intro h
  have h1 := h ⟨[⟨0, 0, 20⟩, ⟨3, 40, 20⟩], true⟩ (by decide) 1 ⟨3, 40, 20⟩ rfl
  revert h1
  decide

end WrappedText

/-! # Commands and key bindings: theorems -/

namespace Command

/-! ## Maps as lists of entries -/

theorem intEquiv_iff (k a : Int) : (!intLess k a && !intLess a k) = true ↔ a = k := by
  simp only [intLess, Bool.and_eq_true, Bool.not_eq_true', decide_eq_false_iff_not]
  omega

theorem cmdEquiv_iff (c a : Command) :
    (!less c a && !less a c) = true ↔ a.state = c.state := by
  simp only [less, Bool.and_eq_true, Bool.not_eq_true', decide_eq_false_iff_not]
  omega

theorem mapFind_int_assign {V : Type} (k k' : Int) (v : V) (m : List (Int × V)) :
    mapFind intLess k (mapAssign intLess k' v m) =
      if k = k' then some (k', v) else mapFind intLess k m := by
  induction m with
  | nil =>
    by_cases h : k = k'
    · subst h; simp [mapFind, mapAssign, intLess]
    · have h' : ¬ k' = k := fun e => h e.symm
      simp [mapFind, mapAssign, h, intLess]
      omega
  | cons e r ih =>
    unfold mapAssign
    by_cases h1 : intLess k' e.1 = true
    · rw [if_pos h1]
      have hlt : k' < e.1 := by simpa [intLess] using h1
      by_cases h : k = k'
      · subst h; simp [mapFind, intLess]
      · rw [if_neg h]
        have hne : ¬ ((!intLess k k' && !intLess k' k) = true) := by
          rw [intEquiv_iff]; exact fun e => h e.symm
        simp only [mapFind, List.find?_cons, Bool.not_eq_true] at hne ⊢
        rw [hne]
    · rw [if_neg h1]
      by_cases h2 : intLess e.1 k' = true
      · rw [if_pos h2]
        have hlt : e.1 < k' := by simpa [intLess] using h2
        simp only [mapFind, List.find?_cons] at ih ⊢
        by_cases h : k = k'
        · subst h
          have hne : (!intLess k e.1 && !intLess e.1 k) = false := by
            rw [Bool.eq_false_iff, Ne, intEquiv_iff]; omega
          rw [hne, ih, if_pos rfl]
        · rw [ih, if_neg h, if_neg h]
      · rw [if_neg h2]
        have heq : e.1 = k' := by
          have a1 : ¬ k' < e.1 := by simpa [intLess] using h1
          have a2 : ¬ e.1 < k' := by simpa [intLess] using h2
          omega
        by_cases h : k = k'
        · subst h
          have hp : (!intLess k e.1 && !intLess e.1 k) = true := (intEquiv_iff _ _).2 heq
          simp only [mapFind, List.find?_cons, hp, if_true]
          rw [heq]
        · rw [if_neg h]
          have hne : (!intLess k e.1 && !intLess e.1 k) = false := by
            rw [Bool.eq_false_iff, Ne, intEquiv_iff, heq]; exact fun e => h e.symm
          simp only [mapFind, List.find?_cons, hne]

theorem mapFind_regenerateCommands (k : Int) (es : List (Command × Int))
    (m0 : List (Int × Command)) :
    (∃ c, mapFind intLess k (es.foldl (fun m e => mapAssign intLess e.2 e.1 m) m0) =
        some (k, c) ∧ (c, k) ∈ es) ∨
    ((∀ e ∈ es, e.2 ≠ k) ∧
      mapFind intLess k (es.foldl (fun m e => mapAssign intLess e.2 e.1 m) m0) =
        mapFind intLess k m0) := by
  induction es generalizing m0 with
  | nil => right; simp
  | cons e es ih =>
    rw [List.foldl_cons]
    rcases ih (mapAssign intLess e.2 e.1 m0) with ⟨c, hc, hmem⟩ | ⟨hall, hfind⟩
    · exact Or.inl ⟨c, hc, List.mem_cons_of_mem _ hmem⟩
    · rw [mapFind_int_assign] at hfind
      by_cases h : k = e.2
      · left
        rw [if_pos h] at hfind
        refine ⟨e.1, ?_, ?_⟩
        · rw [hfind, h]
        · rw [h]; exact List.mem_cons_self _ _
      · right
        rw [if_neg h] at hfind
        refine ⟨?_, hfind⟩
        intro e' he'
        rcases List.mem_cons.1 he' with rfl | h'
        · exact fun e => h e.symm
        · exact hall e' h'

theorem mapAssign_keys {V : Type} (c : Command) (v : V) (m : List (Command × V)) :
    ∀ x ∈ mapAssign less c v m, x.1 = c ∨ ∃ y ∈ m, x.1 = y.1 := by
  induction m with
  | nil => intro x hx; simp [mapAssign] at hx; left; rw [hx]
  | cons e r ih =>
    intro x hx
    unfold mapAssign at hx
    split at hx
    · rcases List.mem_cons.1 hx with rfl | h
      · left; rfl
      · right; exact ⟨x, h, rfl⟩
    · split at hx
      · rcases List.mem_cons.1 hx with rfl | h
        · right; exact ⟨x, List.mem_cons_self _ _, rfl⟩
        · rcases ih x h with h' | ⟨y, hy, hxy⟩
          · left; exact h'
          · right; exact ⟨y, List.mem_cons_of_mem _ hy, hxy⟩
      · rcases List.mem_cons.1 hx with rfl | h
        · right; exact ⟨e, List.mem_cons_self _ _, rfl⟩
        · right; exact ⟨x, List.mem_cons_of_mem _ h, rfl⟩

theorem mapAssign_sorted {V : Type} (c : Command) (v : V) (m : List (Command × V))
    (hm : SortedKeys m) : SortedKeys (mapAssign less c v m) := by
  induction m with
  | nil => simp [mapAssign, SortedKeys]
  | cons e r ih =>
    unfold SortedKeys at hm ih ⊢
    rw [List.pairwise_cons] at hm
    unfold mapAssign
    by_cases h1 : less c e.1 = true
    · rw [if_pos h1]
      have hlt : c.state < e.1.state := by simpa [less] using h1
      rw [List.pairwise_cons]
      refine ⟨?_, List.pairwise_cons.2 hm⟩
      intro x hx
      rcases List.mem_cons.1 hx with rfl | h
      · exact hlt
      · exact lt_trans hlt (hm.1 x h)
    · rw [if_neg h1]
      by_cases h2 : less e.1 c = true
      · rw [if_pos h2]
        have hlt : e.1.state < c.state := by simpa [less] using h2
        rw [List.pairwise_cons]
        refine ⟨?_, ih hm.2⟩
        intro x hx
        rcases mapAssign_keys c v r x hx with h | ⟨y, hy, hxy⟩
        · rw [h]; exact hlt
        · rw [hxy]; exact hm.1 y hy
      · rw [if_neg h2]
        rw [List.pairwise_cons]
        exact ⟨hm.1, hm.2⟩

theorem mapFind_cmd_assign {V : Type} (c a : Command) (v : V) (m : List (Command × V)) :
    (mapFind less c (mapAssign less a v m)).map Prod.snd =
      if c.state = a.state then some v else (mapFind less c m).map Prod.snd := by
  induction m with
  | nil =>
    by_cases h : c.state = a.state
    · have hp : (!less c a && !less a c) = true := (cmdEquiv_iff _ _).2 h.symm
      simp [mapFind, mapAssign, h, hp]
    · have hp : (!less c a && !less a c) = false := by
        rw [Bool.eq_false_iff, Ne, cmdEquiv_iff]; exact fun e => h e.symm
      simp [mapFind, mapAssign, h, hp]
  | cons e r ih =>
    unfold mapAssign
    by_cases h1 : less a e.1 = true
    · rw [if_pos h1]
      by_cases h : c.state = a.state
      · have hp : (!less c a && !less a c) = true := (cmdEquiv_iff _ _).2 h.symm
        simp [mapFind, h, hp]
      · have hp : (!less c a && !less a c) = false := by
          rw [Bool.eq_false_iff, Ne, cmdEquiv_iff]; exact fun e => h e.symm
        rw [if_neg h]
        simp only [mapFind, List.find?_cons, hp]
    · rw [if_neg h1]
      by_cases h2 : less e.1 a = true
      · rw [if_pos h2]
        have hlt : e.1.state < a.state := by simpa [less] using h2
        simp only [mapFind, List.find?_cons] at ih ⊢
        by_cases h : c.state = a.state
        · have hne : (!less c e.1 && !less e.1 c) = false := by
            rw [Bool.eq_false_iff, Ne, cmdEquiv_iff]; omega
          rw [hne, ih, if_pos h]
        · rw [if_neg h] at ih ⊢
          cases hq : (!less c e.1 && !less e.1 c) with
          | true => rfl
          | false => exact ih
      · rw [if_neg h2]
        have heq : e.1.state = a.state := by
          have a1 : ¬ a.state < e.1.state := by simpa [less] using h1
          have a2 : ¬ e.1.state < a.state := by simpa [less] using h2
          omega
        by_cases h : c.state = a.state
        · have hp : (!less c e.1 && !less e.1 c) = true :=
            (cmdEquiv_iff _ _).2 (heq.trans h.symm)
          rw [if_pos h]
          simp only [mapFind, List.find?_cons, hp, Option.map_some']
        · have hp : (!less c e.1 && !less e.1 c) = false := by
            rw [Bool.eq_false_iff, Ne, cmdEquiv_iff, heq]; exact fun e => h e.symm
          rw [if_neg h]
          simp only [mapFind, List.find?_cons, hp]

theorem mapFind_mem {V : Type} (c : Command) (m : List (Command × V)) (e : Command × V)
    (h : mapFind less c m = some e) : e ∈ m ∧ e.1.state = c.state := by
  unfold mapFind at h
  have hp := List.find?_some h
  exact ⟨List.mem_of_find?_eq_some h, (cmdEquiv_iff _ _).1 hp⟩

theorem mapFind_of_mem {V : Type} (m : List (Command × V)) (hm : SortedKeys m)
    (e : Command × V) (c : Command) (he : e ∈ m) (hc : e.1.state = c.state) :
    mapFind less c m = some e := by
  induction m with
  | nil => simp at he
  | cons x r ih =>
    unfold SortedKeys at hm ih
    rw [List.pairwise_cons] at hm
    simp only [mapFind, List.find?_cons] at ih ⊢
    rcases List.mem_cons.1 he with rfl | h
    · rw [(cmdEquiv_iff c e.1).2 hc]
    · have hlt := hm.1 e h
      have hne : (!less c x.1 && !less x.1 c) = false := by
        rw [Bool.eq_false_iff, Ne, cmdEquiv_iff]; omega
      rw [hne]
      exact ih hm.2 h

end Command

namespace Command

/-! ## Key bindings -/

theorem regenerated_SetKey (g : Int → String) (s : Tables) (c : Command) (k : Int)
    (hs : SortedKeys s.keycodeForCommand) : Regenerated (SetKey g s c k) :=
  ⟨mapAssign_sorted c k _ hs, rfl, rfl⟩

theorem regenerated_foldl (g : Int → String) (calls : List (Command × Int)) (s : Tables)
    (hs : Regenerated s) :
    Regenerated (calls.foldl (fun s e => SetKey g s e.1 e.2) s) := by
  induction calls generalizing s with
  | nil => exact hs
  | cons e r ih => exact ih _ (regenerated_SetKey g s e.1 e.2 hs.1)

theorem regenerated_afterSetKeys (g : Int → String) (calls : List (Command × Int)) :
    Regenerated (afterSetKeys g calls) :=
  regenerated_foldl g calls {} ⟨List.Pairwise.nil, rfl, rfl⟩

theorem keycodeOf_eq_some (s : Tables) (c : Command) (k : Int) :
    keycodeOf s c = some k ↔
      ∃ e, mapFind less c s.keycodeForCommand = some e ∧ e.2 = k := by
  simp [keycodeOf, Option.map_eq_some']

theorem keycodeOf_of_mem (s : Tables) (hs : SortedKeys s.keycodeForCommand)
    (e : Command × Int) (he : e ∈ s.keycodeForCommand) : keycodeOf s e.1 = some e.2 := by
  rw [keycodeOf, mapFind_of_mem _ hs e e.1 he rfl]; rfl

theorem keycodeOf_congr (s : Tables) (c d : Command) (h : c.state = d.state) :
    keycodeOf s c = keycodeOf s d := by
  have hp : (fun e : Command × Int => !less c e.1 && !less e.1 c) =
      (fun e => !less d e.1 && !less e.1 d) := by
    funext e; simp [less, h]
  simp only [keycodeOf, mapFind, hp]

theorem keycodeOf_SetKey (g : Int → String) (s : Tables) (a c : Command) (k : Int) :
    keycodeOf (SetKey g s a k) c =
      if c.state = a.state then some k else keycodeOf s c :=
  mapFind_cmd_assign c a k s.keycodeForCommand

theorem ofKeycode_regenerated (s : Tables) (hs : Regenerated s) (k : Int) :
    ((∃ c, keycodeOf s c = some k) → keycodeOf s (ofKeycode s k) = some k) ∧
    ((∀ c, keycodeOf s c ≠ some k) → ofKeycode s k = {}) := by
  obtain ⟨hsort, hcmd, -⟩ := hs
  have key := mapFind_regenerateCommands k s.keycodeForCommand []
  rw [← regenerateCommands, ← hcmd] at key
  constructor
  · rintro ⟨c, hc⟩
    obtain ⟨e, he, hek⟩ := (keycodeOf_eq_some s c k).1 hc
    rcases key with ⟨c0, hfind, hmem⟩ | ⟨hall, -⟩
    · have := keycodeOf_of_mem s hsort (c0, k) hmem
      simpa [ofKeycode, hfind] using this
    · exact absurd hek (hall e (mapFind_mem c _ e he).1)
  · intro hnone
    rcases key with ⟨c0, -, hmem⟩ | ⟨-, hfind⟩
    · exact absurd (keycodeOf_of_mem s hsort (c0, k) hmem) (hnone c0)
    · have hnil : mapFind intLess k s.commandForKeycode = none := by
        rw [hfind]; rfl
      simp [ofKeycode, hnil]

/-- C11: after any sequence of `SetKey` calls, `Command(k)` is a command currently
mapped to `k` whenever some command is mapped to `k`, and the empty command otherwise.
So when `a` and `b` are mapped to the same key and `a` is re-mapped to a different
key, the original key resolves to a command other than `a` that is still mapped to
it: to `b`, when `a` and `b` were the only two. -/
theorem ofKeycode_after_SetKeys (g : Int → String) (calls : List (Command × Int)) (k : Int) :
    ((∃ c, keycodeOf (afterSetKeys g calls) c = some k) →
      keycodeOf (afterSetKeys g calls) (ofKeycode (afterSetKeys g calls) k) = some k) ∧
    ((∀ c, keycodeOf (afterSetKeys g calls) c ≠ some k) →
      ofKeycode (afterSetKeys g calls) k = {}) ∧
    (∀ (a b : Command) (k' : Int), a.state ≠ b.state →
      keycodeOf (afterSetKeys g calls) a = some k →
      keycodeOf (afterSetKeys g calls) b = some k → k' ≠ k →
      (ofKeycode (SetKey g (afterSetKeys g calls) a k') k).state ≠ a.state ∧
      keycodeOf (SetKey g (afterSetKeys g calls) a k')
        (ofKeycode (SetKey g (afterSetKeys g calls) a k') k) = some k ∧
      ((∀ c, keycodeOf (afterSetKeys g calls) c = some k →
          c.state = a.state ∨ c.state = b.state) →
        (ofKeycode (SetKey g (afterSetKeys g calls) a k') k).state = b.state)) := by
  have hreg := regenerated_afterSetKeys g calls
  refine ⟨(ofKeycode_regenerated _ hreg k).1, (ofKeycode_regenerated _ hreg k).2, ?_⟩
  intro a b k' hab ha hb hk
  have hreg' := regenerated_SetKey g (afterSetKeys g calls) a k' hreg.1
  have hb' : keycodeOf (SetKey g (afterSetKeys g calls) a k') b = some k := by
    rw [keycodeOf_SetKey, if_neg (fun e => hab e.symm)]; exact hb
  have hres := (ofKeycode_regenerated _ hreg' k).1 ⟨b, hb'⟩
  have hne : (ofKeycode (SetKey g (afterSetKeys g calls) a k') k).state ≠ a.state := by
    intro e
    rw [keycodeOf_SetKey, if_pos e] at hres
    exact hk (Option.some.inj hres)
  refine ⟨hne, hres, ?_⟩
  intro honly
  have hold := hres
  rw [keycodeOf_SetKey, if_neg hne] at hold
  rcases honly _ hold with h | h
  · exact absurd h hne
  · exact h

/-- C11, an instance: `LEFT` and `RIGHT` are both mapped to key 5, then `LEFT` is
re-mapped to key 8; key 5 resolves to `RIGHT`. -/
theorem ofKeycode_after_SetKeys_witness :
    keycodeOf (afterSetKeys noKeyName [(LEFT, 5), (RIGHT, 5)]) LEFT = some 5 ∧
    keycodeOf (afterSetKeys noKeyName [(LEFT, 5), (RIGHT, 5)]) RIGHT = some 5 ∧
    (ofKeycode (SetKey noKeyName (afterSetKeys noKeyName [(LEFT, 5), (RIGHT, 5)]) LEFT 8)
      5).state = RIGHT.state :=
  ⟨by decide, by decide,
    ((ofKeycode_after_SetKeys noKeyName [(LEFT, 5), (RIGHT, 5)] 5).2.2 LEFT RIGHT 8
      (by decide) (by decide) (by decide) (by decide)).2.2
      (fun c hc => by
        obtain ⟨e, he, -⟩ := (keycodeOf_eq_some _ c 5).1 hc
        have hm := mapFind_mem c _ e he
        have hl : e = (LEFT, 5) ∨ e = (RIGHT, 5) := by
          simpa [afterSetKeys, SetKey, mapAssign, less, LEFT, RIGHT, ofState] using hm.1
        rcases hl with h | h
        · left; rw [← hm.2, h]
        · right; rw [← hm.2, h])⟩

end Command

namespace Command

/-! ## Conflicts -/

theorem mapIncrement_keys (k : Int) (m : List (Int × Int)) :
    ∀ x ∈ mapIncrement k m, x.1 = k ∨ ∃ y ∈ m, x.1 = y.1 := by
  induction m with
  | nil => intro x hx; simp [mapIncrement] at hx; left; rw [hx]
  | cons e r ih =>
    intro x hx
    unfold mapIncrement at hx
    split at hx
    · rcases List.mem_cons.1 hx with rfl | h
      · left; rfl
      · right; exact ⟨x, h, rfl⟩
    · split at hx
      · rcases List.mem_cons.1 hx with rfl | h
        · right; exact ⟨x, List.mem_cons_self _ _, rfl⟩
        · rcases ih x h with h' | ⟨y, hy, hxy⟩
          · left; exact h'
          · right; exact ⟨y, List.mem_cons_of_mem _ hy, hxy⟩
      · rcases List.mem_cons.1 hx with rfl | h
        · right; exact ⟨e, List.mem_cons_self _ _, rfl⟩
        · right; exact ⟨x, List.mem_cons_of_mem _ h, rfl⟩

theorem mapIncrement_sorted (k : Int) (m : List (Int × Int)) (hm : SortedInts m) :
    SortedInts (mapIncrement k m) := by
  induction m with
  | nil => simp [mapIncrement, SortedInts]
  | cons e r ih =>
    unfold SortedInts at hm ih ⊢
    rw [List.pairwise_cons] at hm
    unfold mapIncrement
    by_cases h1 : intLess k e.1 = true
    · rw [if_pos h1]
      have hlt : k < e.1 := by simpa [intLess] using h1
      rw [List.pairwise_cons]
      refine ⟨?_, List.pairwise_cons.2 hm⟩
      intro x hx
      rcases List.mem_cons.1 hx with rfl | h
      · exact hlt
      · exact lt_trans hlt (hm.1 x h)
    · rw [if_neg h1]
      by_cases h2 : intLess e.1 k = true
      · rw [if_pos h2]
        have hlt : e.1 < k := by simpa [intLess] using h2
        rw [List.pairwise_cons]
        refine ⟨?_, ih hm.2⟩
        intro x hx
        rcases mapIncrement_keys k r x hx with h | ⟨y, hy, hxy⟩
        · rw [h]; exact hlt
        · rw [hxy]; exact hm.1 y hy
      · rw [if_neg h2]
        rw [List.pairwise_cons]
        exact ⟨hm.1, hm.2⟩

theorem countOf_cons (e : Int × Int) (r : List (Int × Int)) (k : Int) :
    countOf (e :: r) k = if e.1 = k then e.2 else countOf r k := by
  unfold countOf mapFind
  rw [List.find?_cons]
  by_cases h : e.1 = k
  · rw [(intEquiv_iff k e.1).2 h, if_pos h]
  · have hne : (!intLess k e.1 && !intLess e.1 k) = false := by
      rw [Bool.eq_false_iff, Ne, intEquiv_iff]; exact h
    rw [hne, if_neg h]

theorem countOf_of_lt (m : List (Int × Int)) (k : Int) (h : ∀ x ∈ m, k < x.1) :
    countOf m k = 0 := by
  induction m with
  | nil => rfl
  | cons e r ih =>
    rw [countOf_cons, if_neg (by have := h e (List.mem_cons_self _ _); omega)]
    exact ih (fun x hx => h x (List.mem_cons_of_mem _ hx))

theorem countOf_mapIncrement (k' : Int) (m : List (Int × Int)) (hm : SortedInts m) (k : Int) :
    countOf (mapIncrement k' m) k = countOf m k + if k = k' then 1 else 0 := by
  induction m with
  | nil =>
    simp only [mapIncrement, countOf_cons]
    by_cases h : k = k'
    · subst h; simp [countOf, mapFind]
    · rw [if_neg (fun e => h e.symm), if_neg h]; simp
  | cons e r ih =>
    unfold SortedInts at hm ih
    rw [List.pairwise_cons] at hm
    unfold mapIncrement
    by_cases h1 : intLess k' e.1 = true
    · rw [if_pos h1]
      have hlt : k' < e.1 := by simpa [intLess] using h1
      rw [countOf_cons]
      by_cases h : k = k'
      · subst h
        have hz : countOf (e :: r) k = 0 := by
          apply countOf_of_lt
          intro x hx
          rcases List.mem_cons.1 hx with rfl | hx'
          · exact hlt
          · exact lt_trans hlt (hm.1 x hx')
        simp [hz]
      · rw [if_neg (fun e => h e.symm), if_neg h]; simp
    · rw [if_neg h1]
      by_cases h2 : intLess e.1 k' = true
      · rw [if_pos h2]
        have hlt : e.1 < k' := by simpa [intLess] using h2
        rw [countOf_cons, countOf_cons, ih hm.2]
        by_cases h : e.1 = k
        · rw [if_pos h, if_pos h, if_neg (by omega)]; simp
        · rw [if_neg h, if_neg h]
      · rw [if_neg h2]
        have heq : e.1 = k' := by
          have a1 : ¬ k' < e.1 := by simpa [intLess] using h1
          have a2 : ¬ e.1 < k' := by simpa [intLess] using h2
          omega
        rw [countOf_cons, countOf_cons]
        by_cases h : e.1 = k
        · rw [if_pos h, if_pos h, if_pos (by omega)]
        · rw [if_neg h, if_neg h, if_neg (by omega)]; simp

theorem countOf_foldl (es : List (Command × Int)) (m0 : List (Int × Int))
    (hm : SortedInts m0) (k : Int) :
    countOf (es.foldl (fun m e => mapIncrement e.2 m) m0) k =
      countOf m0 k + (es.countP (fun e => decide (e.2 = k)) : Nat) := by
  induction es generalizing m0 with
  | nil => simp
  | cons e es ih =>
    rw [List.foldl_cons, ih _ (mapIncrement_sorted e.2 m0 hm), countOf_mapIncrement _ _ hm,
      List.countP_cons]
    by_cases h : k = e.2
    · rw [if_pos h, if_pos (by simpa using h.symm)]; push_cast; ring
    · rw [if_neg h, if_neg (by simpa using fun e' => h e'.symm)]; simp

theorem countOf_regenerateCounts (es : List (Command × Int)) (k : Int) :
    countOf (regenerateCounts es) k = (es.countP (fun e => decide (e.2 = k)) : Nat) := by
  unfold regenerateCounts
  rw [countOf_foldl es [] List.Pairwise.nil k]
  simp [countOf, mapFind]

theorem HasConflict_eq (s : Tables) (c : Command) :
    HasConflict s c = true ↔
      ∃ e, mapFind less c s.keycodeForCommand = some e ∧ countOf s.keycodeCount e.2 > 1 := by
  unfold HasConflict
  cases hf : mapFind less c s.keycodeForCommand with
  | none => simp
  | some e =>
    simp only [Option.some.injEq, exists_eq_left']
    unfold countOf
    cases hc : mapFind intLess e.2 s.keycodeCount with
    | none => simp
    | some n => simp

theorem exists_other_state (l : List (Command × Int))
    (hpw : l.Pairwise (fun a b => a.1.state < b.1.state)) (hlen : 1 < l.length)
    (s0 : Nat) : ∃ x ∈ l, x.1.state ≠ s0 := by
  match l, hlen, hpw with
  | x :: y :: r, _, hpw =>
    have hlt : x.1.state < y.1.state :=
      (List.pairwise_cons.1 hpw).1 y (List.mem_cons_self _ _)
    by_cases hxe : x.1.state = s0
    · exact ⟨y, by simp, by omega⟩
    · exact ⟨x, by simp, hxe⟩

theorem one_lt_length_of_two (l : List (Command × Int)) (x e : Command × Int)
    (hx : x ∈ l) (he : e ∈ l) (hne : x ≠ e) : 1 < l.length := by
  match l, hx, he with
  | [z], h1, h2 =>
    simp only [List.mem_singleton] at h1 h2
    exact absurd (h1.trans h2.symm) hne
  | _ :: _ :: _, _, _ => simp

theorem two_le_countP_iff (m : List (Command × Int)) (hm : SortedKeys m) (k : Int)
    (e : Command × Int) (he : e ∈ m) (hek : e.2 = k) :
    1 < m.countP (fun x => decide (x.2 = k)) ↔
      ∃ x ∈ m, x.2 = k ∧ x.1.state ≠ e.1.state := by
  rw [List.countP_eq_length_filter]
  have hsub : (m.filter (fun x => decide (x.2 = k))).Pairwise
      (fun a b => a.1.state < b.1.state) :=
    List.Pairwise.sublist (List.filter_sublist m) hm
  constructor
  · intro hlen
    obtain ⟨x, hx, hne⟩ := exists_other_state _ hsub hlen e.1.state
    rw [List.mem_filter] at hx
    exact ⟨x, hx.1, by simpa using hx.2, hne⟩
  · rintro ⟨x, hx, hxk, hne⟩
    have hx' : x ∈ m.filter (fun x => decide (x.2 = k)) := by
      rw [List.mem_filter]; exact ⟨hx, by simpa using hxk⟩
    have he' : e ∈ m.filter (fun x => decide (x.2 = k)) := by
      rw [List.mem_filter]; exact ⟨he, by simpa using hek⟩
    exact one_lt_length_of_two _ x e hx' he' (fun h => hne (by rw [h]))

/-- C12: after any sequence of `SetKey` calls, `c.HasConflict()` is true exactly when
`c` has a key assigned and some other command is assigned the same key code; a
command with no key has no conflict. -/
theorem HasConflict_after_SetKeys (g : Int → String) (calls : List (Command × Int))
    (c : Command) :
    (HasConflict (afterSetKeys g calls) c = true ↔
      ∃ k, keycodeOf (afterSetKeys g calls) c = some k ∧
        ∃ c', c'.state ≠ c.state ∧ keycodeOf (afterSetKeys g calls) c' = some k) ∧
    (keycodeOf (afterSetKeys g calls) c = none →
      HasConflict (afterSetKeys g calls) c = false) := by
  obtain ⟨hsort, -, hcount⟩ := regenerated_afterSetKeys g calls
  constructor
  · rw [HasConflict_eq, hcount]
    constructor
    · rintro ⟨e, he, hgt⟩
      rw [countOf_regenerateCounts] at hgt
      have hmem := mapFind_mem c _ e he
      have hgt' : 1 < (afterSetKeys g calls).keycodeForCommand.countP
          (fun x => decide (x.2 = e.2)) := by exact_mod_cast hgt
      obtain ⟨x, hx, hxk, hne⟩ :=
        (two_le_countP_iff _ hsort e.2 e hmem.1 rfl).1 hgt'
      refine ⟨e.2, (keycodeOf_eq_some _ c e.2).2 ⟨e, he, rfl⟩, x.1, ?_, ?_⟩
      · rw [← hmem.2]; exact hne
      · rw [← hxk]; exact keycodeOf_of_mem _ hsort x hx
    · rintro ⟨k, hk, c', hne, hk'⟩
      obtain ⟨e, he, hek⟩ := (keycodeOf_eq_some _ c k).1 hk
      obtain ⟨e', he', hek'⟩ := (keycodeOf_eq_some _ c' k).1 hk'
      have hmem := mapFind_mem c _ e he
      have hmem' := mapFind_mem c' _ e' he'
      refine ⟨e, he, ?_⟩
      rw [countOf_regenerateCounts]
      have : 1 < (afterSetKeys g calls).keycodeForCommand.countP
          (fun x => decide (x.2 = e.2)) :=
        (two_le_countP_iff _ hsort e.2 e hmem.1 rfl).2
          ⟨e', hmem'.1, by rw [hek', hek], by rw [hmem'.2, hmem.2]; exact hne⟩
      exact_mod_cast this
  · intro hnone
    cases hf : mapFind less c (afterSetKeys g calls).keycodeForCommand with
    | none => simp [HasConflict, hf]
    | some e => simp [keycodeOf, hf] at hnone

/-- C12, an instance: `LEFT` and `RIGHT` share key 5 and `MENU` has key 7, `JUMP` has
no key; `LEFT` has a conflict, `JUMP` has none. -/
theorem HasConflict_after_SetKeys_witness :
    HasConflict (afterSetKeys noKeyName [(LEFT, 5), (RIGHT, 5), (MENU, 7)]) LEFT = true ∧
    keycodeOf (afterSetKeys noKeyName [(LEFT, 5), (RIGHT, 5), (MENU, 7)]) JUMP = none ∧
    HasConflict (afterSetKeys noKeyName [(LEFT, 5), (RIGHT, 5), (MENU, 7)]) JUMP = false :=
  ⟨(HasConflict_after_SetKeys noKeyName [(LEFT, 5), (RIGHT, 5), (MENU, 7)] LEFT).1.2
      ⟨5, by decide, RIGHT, by decide, by decide⟩,
    by decide,
    (HasConflict_after_SetKeys noKeyName [(LEFT, 5), (RIGHT, 5), (MENU, 7)] JUMP).2
      (by decide)⟩

end Command

namespace Command

/-! ## Bit masks and descriptions -/

/-- C13: after `a |= b` the bits of `a` are the bitwise OR of the old bits of `a` and
the bits of `b`, and the turn of `a` is the turn of `b` when that is nonzero and the
old turn of `a` otherwise; `operator|` returns the same combined value. -/
theorem orAssign_spec (a b : Command) :
    (orAssign a b).state = a.state ||| b.state ∧
    (∀ i, (orAssign a b).state.testBit i = (a.state.testBit i || b.state.testBit i)) ∧
    (orAssign a b).turn = (if b.turn ≠ 0 then b.turn else a.turn) ∧
    Command.or a b = orAssign a b :=
  ⟨rfl, fun i => Nat.testBit_or _ _ i, rfl, rfl⟩

set_option maxRecDepth 100000 in
theorem description_powers :
    ∀ e ∈ description, ∃ k, k < 64 ∧ e.1.state = 1 <<< k := by
  decide

set_option maxRecDepth 100000 in
theorem enumeration_powers :
    ∀ e ∈ enumeration, e.1.state = 0 ∨ ∃ k, k < 64 ∧ e.1.state = 1 <<< k := by
  decide

theorem Description_of_two_bits (c : Command) (i j : Nat) (hij : i ≠ j)
    (hi : c.state.testBit i = true) (hj : c.state.testBit j = true) :
    Description c = "" := by
  have hnone : mapFind less c description = none := by
    unfold mapFind
    rw [List.find?_eq_none]
    intro e he hp
    have hst : e.1.state = c.state := (cmdEquiv_iff c e.1).1 hp
    obtain ⟨k, -, hk⟩ := description_powers e he
    rw [hst, Nat.one_shiftLeft] at hk
    rw [hk, Nat.testBit_two_pow] at hi hj
    simp only [decide_eq_true_eq] at hi hj
    exact hij (hi.symm.trans hj)
  simp [Description, hnone]

/-- C14: `Get(c.Description())` returns `c` for every named command `c` that has a
non-empty description; `Get` returns `NONE` for every string that is not the
description of a command of the table, the empty string among them; and
`Description()` is empty for every command that has two different bits set, so for
the combination of any two different named commands. -/
theorem Get_Description_spec :
    (∀ e ∈ enumeration, Description e.1 ≠ "" → Get (Description e.1) = e.1) ∧
    (∀ s : String, (∀ e ∈ description, e.2 ≠ s) → Get s = NONE) ∧
    Get "" = NONE ∧
    (∀ (c : Command) (i j : Nat), i ≠ j → c.state.testBit i = true →
      c.state.testBit j = true → Description c = "") ∧
    (∀ a ∈ enumeration, ∀ b ∈ enumeration, a.1 ≠ NONE → b.1 ≠ NONE → a.1 ≠ b.1 →
      Description (Command.or a.1 b.1) = "") := by
  refine ⟨by decide, ?_, by decide, Description_of_two_bits, ?_⟩
  · intro s hs
    have hnone : description.find? (fun e => s == e.2) = none := by
      rw [List.find?_eq_none]
      intro e he hp
      have h2 : s = e.2 := by simpa using hp
      exact hs e he h2.symm
    simp [Get, hnone]
  · intro a ha b hb hna hnb hab
    have hturn : ∀ e ∈ enumeration, e.1.turn = 0 := by decide
    have hst : ∀ x y : Command, x.turn = 0 → y.turn = 0 → x.state = y.state → x = y := by
      intro x y hx hy h
      cases x; cases y; simp_all
    have hna' : a.1.state ≠ 0 := fun h =>
      hna (hst _ _ (hturn a ha) rfl (by rw [h]; rfl))
    have hnb' : b.1.state ≠ 0 := fun h =>
      hnb (hst _ _ (hturn b hb) rfl (by rw [h]; rfl))
    obtain ⟨i, -, hi⟩ := (enumeration_powers a ha).resolve_left hna'
    obtain ⟨j, -, hj⟩ := (enumeration_powers b hb).resolve_left hnb'
    rw [Nat.one_shiftLeft] at hi hj
    have hij : i ≠ j := by
      intro h
      exact hab (hst _ _ (hturn a ha) (hturn b hb) (by rw [hi, hj, h]))
    apply Description_of_two_bits _ i j hij
    · show (a.1.state ||| b.1.state).testBit i = true
      rw [Nat.testBit_or, hi, Nat.testBit_two_pow_self]; rfl
    · show (a.1.state ||| b.1.state).testBit j = true
      rw [Nat.testBit_or, hj, Nat.testBit_two_pow_self]; simp

/-- C14, instances: `Get` of the description of `STOP` is `STOP`, `Get` of a string
that no command has is `NONE`, and `LEFT | RIGHT` has no description. -/
theorem Get_Description_spec_witness :
    Get (Description STOP) = STOP ∧ Get "Warp" = NONE ∧
    Description (Command.or LEFT RIGHT) = "" :=
  ⟨Get_Description_spec.1 (STOP, "Stop") (by decide) (by decide),
    Get_Description_spec.2.1 "Warp" (by decide),
    Get_Description_spec.2.2.2.2 (LEFT, "Turn left") (by decide) (RIGHT, "Turn right")
      (by decide) (by decide) (by decide) (by decide)⟩

/-- C15: for commands over 64 bits, `a.And(c)` holds exactly the bits set in both `a`
and `c` and `a.AndNot(c)` exactly the bits set in `a` and not in `c`; the two share no
bit, their union is the bit set of `a`, and `a.Has(c)` is true exactly when
`a.And(c)` has at least one bit. -/
theorem And_AndNot_spec (a c : Command) (ha : a.state < 2 ^ 64) :
    (∀ i, (And a c).state.testBit i = (a.state.testBit i && c.state.testBit i)) ∧
    (∀ i, (AndNot a c).state.testBit i = (a.state.testBit i && !c.state.testBit i)) ∧
    (And a c).state &&& (AndNot a c).state = 0 ∧
    (And a c).state ||| (AndNot a c).state = a.state ∧
    (Has a c = true ↔ ∃ i, (And a c).state.testBit i = true) := by
  have hand : ∀ i, (And a c).state.testBit i = (a.state.testBit i && c.state.testBit i) :=
    fun i => Nat.testBit_and _ _ i
  have hhigh : ∀ i, 64 ≤ i → a.state.testBit i = false := by
    intro i hi
    apply Nat.testBit_lt_two_pow
    exact lt_of_lt_of_le ha (Nat.pow_le_pow_right (by norm_num) hi)
  have hnot : ∀ i, (AndNot a c).state.testBit i =
      (a.state.testBit i && !c.state.testBit i) := by
    intro i
    show (a.state &&& ((2 ^ 64 - 1) ^^^ c.state)).testBit i = _
    rw [Nat.testBit_and, Nat.testBit_xor, Nat.testBit_two_pow_sub_one]
    by_cases hi : i < 64
    · simp [hi]
    · rw [hhigh i (by omega)]; simp
  refine ⟨hand, hnot, ?_, ?_, ?_⟩
  · apply Nat.eq_of_testBit_eq
    intro i
    rw [Nat.testBit_and, hand, hnot, Nat.zero_testBit]
    cases a.state.testBit i <;> cases c.state.testBit i <;> rfl
  · apply Nat.eq_of_testBit_eq
    intro i
    rw [Nat.testBit_or, hand, hnot]
    cases a.state.testBit i <;> cases c.state.testBit i <;> rfl
  · simp only [Has, decide_eq_true_eq]
    constructor
    · intro h
      exact Nat.ne_zero_implies_bit_true h
    · rintro ⟨i, hi⟩ h0
      have : (And a c).state = 0 := h0
      rw [this, Nat.zero_testBit] at hi
      exact Bool.false_ne_true hi

/-- C15, an instance: `a = LEFT | RIGHT | JUMP` and `c = RIGHT | MAP`. -/
theorem And_AndNot_spec_witness :
    (And (ofState 4108) (ofState 524296)).state = 8 ∧
    (AndNot (ofState 4108) (ofState 524296)).state = 4100 ∧
    (And (ofState 4108) (ofState 524296)).state |||
      (AndNot (ofState 4108) (ofState 524296)).state = (ofState 4108).state ∧
    Has (ofState 4108) (ofState 524296) = true :=
  ⟨by decide, by decide,
    (And_AndNot_spec (ofState 4108) (ofState 524296) (by decide)).2.2.2.1,
    by decide⟩

end Command

/-! # Dialogs: theorems -/

namespace Dialog

open SDL

theorem validate_input (d : Dialog) : (validate d).input = d.input := by
  unfold validate; split <;> rfl

theorem validate_stringFun (d : Dialog) : (validate d).stringFun = d.stringFun := by
  unfold validate; split <;> rfl

theorem validate_intFun (d : Dialog) : (validate d).intFun = d.intFun := by
  unfold validate; split <;> rfl

theorem validate_isMission (d : Dialog) : (validate d).isMission = d.isMission := by
  unfold validate; split <;> rfl

theorem digit_of_range (c : Char) (h1 : '1' ≤ c) (h9 : c ≤ '9') :
    c.isDigit = true ∧ c ≠ '0' := by
  have a1 : (49 : Nat) ≤ c.toNat := h1
  have a9 : c.toNat ≤ 57 := h9
  constructor
  · simp only [Char.isDigit, Bool.and_eq_true, decide_eq_true_eq]
    exact ⟨(by show (48 : Nat) ≤ c.toNat; omega), a9⟩
  · intro h
    rw [h] at a1
    exact absurd a1 (by decide)

theorem isIntInput_append (l : List Char) (c : Char) (hl : IsIntInput l)
    (hd : c.isDigit = true) (h0 : c = '0' → l ≠ []) : IsIntInput (l ++ [c]) := by
  right
  constructor
  · intro x hx
    rcases List.mem_append.1 hx with h | h
    · rcases hl with rfl | ⟨hall, -⟩
      · simp at h
      · exact hall x h
    · simp only [List.mem_singleton] at h
      rw [h]; exact hd
  · cases l with
    | nil =>
      simp only [List.nil_append, List.head?_cons, ne_eq, Option.some.injEq]
      intro h
      exact h0 h rfl
    | cons a r =>
      rcases hl with h | ⟨-, hhead⟩
      · simp at h
      · simpa using hhead

theorem isIntInput_dropLast (l : List Char) (hl : IsIntInput l) : IsIntInput l.dropLast := by
  rcases hl with rfl | ⟨hall, hhead⟩
  · left; rfl
  · cases l with
    | nil => left; rfl
    | cons a r =>
      cases r with
      | nil => left; rfl
      | cons b r2 =>
        right
        constructor
        · intro x hx
          exact hall x (List.dropLast_subset _ hx)
        · simpa [List.dropLast] using hhead

theorem shortcuts_input (d : Dialog) (key : Int) (mod : Nat) :
    (shortcuts d key mod).input = d.input ∧
    (shortcuts d key mod).stringFun = d.stringFun := by
  unfold shortcuts
  simp only
  split <;> split <;> exact ⟨rfl, rfl⟩

theorem shortcuts_kind (d : Dialog) (key : Int) (mod : Nat) :
    (shortcuts d key mod).intFun = d.intFun ∧
    (shortcuts d key mod).isMission = d.isMission := by
  unfold shortcuts
  simp only
  split <;> split <;> exact ⟨rfl, rfl⟩

theorem acceptOrClose_dialog (env : Env) (d : Dialog) : (acceptOrClose env d).1 = d := by
  unfold acceptOrClose
  split
  · rfl
  · split
    · split <;> rfl
    · rfl

theorem typeInto_intInput (d : Dialog) (c : Char) (hs : d.stringFun = false)
    (hi : IsIntInput d.input) : IsIntInput (typeInto d c) := by
  unfold typeInto
  rw [if_neg (by simp [hs])]
  split
  · rename_i h
    simp only [Bool.and_eq_true, beq_iff_eq, Bool.not_eq_true', List.isEmpty_eq_false] at h
    obtain ⟨⟨-, hc⟩, hne⟩ := h
    refine isIntInput_append _ _ hi (by rw [hc]; decide) (fun _ => ?_)
    intro he
    rw [he] at hne
    simp at hne
  · split
    · rename_i h
      simp only [Bool.and_eq_true, decide_eq_true_eq] at h
      obtain ⟨⟨-, h1⟩, h9⟩ := h
      have := digit_of_range c h1 h9
      exact isIntInput_append _ _ hi this.1 (fun h0 => absurd h0 this.2)
    · exact hi

theorem KeyDown_keeps_stringFun (env : Env) (d : Dialog) (key : Int) (mod : Nat)
    (command : Command) (isNewPress : Bool) :
    (KeyDown env d key mod command isNewPress).1.stringFun = d.stringFun := by
  generalize hr : KeyDown env d key mod command isNewPress = r
  unfold KeyDown at hr
  repeat' split at hr
  all_goals subst hr
  all_goals first
    | rfl
    | exact validate_stringFun _
    | (rw [acceptOrClose_dialog]; exact (shortcuts_input d key mod).2)

theorem KeyDown_keeps_kind (env : Env) (d : Dialog) (key : Int) (mod : Nat)
    (command : Command) (isNewPress : Bool) :
    (KeyDown env d key mod command isNewPress).1.intFun = d.intFun ∧
    (KeyDown env d key mod command isNewPress).1.isMission = d.isMission := by
  generalize hr : KeyDown env d key mod command isNewPress = r
  unfold KeyDown at hr
  repeat' split at hr
  all_goals subst hr
  all_goals first
    | exact ⟨rfl, rfl⟩
    | exact ⟨validate_intFun _, validate_isMission _⟩
    | (rw [acceptOrClose_dialog]; exact shortcuts_kind d key mod)

theorem KeyDown_keeps_intInput (env : Env) (d : Dialog) (key : Int) (mod : Nat)
    (command : Command) (isNewPress : Bool)
    (hs : d.stringFun = false) (hi : IsIntInput d.input) :
    IsIntInput (KeyDown env d key mod command isNewPress).1.input := by
  generalize hr : KeyDown env d key mod command isNewPress = r
  unfold KeyDown at hr
  repeat' split at hr
  all_goals subst hr
  all_goals first
    | exact hi
    | (rw [validate_input]; exact isIntInput_dropLast _ hi)
    | (rw [validate_input]; exact typeInto_intInput d _ hs hi)
    | (rw [acceptOrClose_dialog, (shortcuts_input d key mod).1]; exact hi)

theorem afterKeys_keeps_intInput (env : Env) (events : List KeyEvent) (d : Dialog)
    (hs : d.stringFun = false) (hi : IsIntInput d.input) :
    IsIntInput (afterKeys env d events).input ∧
    (afterKeys env d events).stringFun = d.stringFun ∧
    (afterKeys env d events).intFun = d.intFun ∧
    (afterKeys env d events).isMission = d.isMission := by
  induction events generalizing d with
  | nil => exact ⟨hi, rfl, rfl, rfl⟩
  | cons e r ih =>
    have hs' := KeyDown_keeps_stringFun env d e.key e.mod e.command e.isNewPress
    have hk := KeyDown_keeps_kind env d e.key e.mod e.command e.isNewPress
    obtain ⟨h1, h2, h3, h4⟩ := ih _ (hs'.trans hs)
      (KeyDown_keeps_intInput env d _ _ _ _ hs hi)
    exact ⟨h1, h2.trans hs', h3.trans hk.1, h4.trans hk.2⟩

/-- C16: in a non-mission dialog with an integer callback and no string callback that
starts with an empty input, after every sequence of `KeyDown` calls, with any keys and
modifiers, the input is empty or a string of decimal digits whose first character is
not `0`; the dialog is still a non-mission dialog with an integer callback and no
string callback. -/
theorem integer_input_no_leading_zero (env : Env) (d : Dialog) (events : List KeyEvent)
    (hm : d.isMission = false) (hint : d.intFun = true) (hs : d.stringFun = false)
    (hin : d.input = []) :
    ((afterKeys env d events).input = [] ∨
      ((∀ c ∈ (afterKeys env d events).input, c.isDigit = true) ∧
        (afterKeys env d events).input.head? ≠ some '0')) ∧
    (afterKeys env d events).isMission = false ∧
    (afterKeys env d events).intFun = true ∧
    (afterKeys env d events).stringFun = false := by
  obtain ⟨h1, h2, h3, h4⟩ := afterKeys_keeps_intInput env events d hs (Or.inl hin)
  exact ⟨h1, h4.trans hm, h3.trans hint, h2.trans hs⟩

/-- C16, an instance: the keys `0`, `1`, `0`, keypad `0`, backspace typed into an
empty integer input leave `10`. -/
theorem integer_input_no_leading_zero_witness :
    (afterKeys exampleEnv { intFun := true }
      [⟨48, 0, {}, true⟩, ⟨49, 0, {}, true⟩, ⟨48, 0, {}, true⟩,
        ⟨scancodeToKeycode 98, 0, {}, true⟩, ⟨SDLK_BACKSPACE, 0, {}, true⟩]).input =
      ['1', '0'] ∧
    ((afterKeys exampleEnv { intFun := true }
      [⟨48, 0, {}, true⟩, ⟨49, 0, {}, true⟩, ⟨48, 0, {}, true⟩,
        ⟨scancodeToKeycode 98, 0, {}, true⟩, ⟨SDLK_BACKSPACE, 0, {}, true⟩]).input = [] ∨
      ((∀ c ∈ (afterKeys exampleEnv { intFun := true }
          [⟨48, 0, {}, true⟩, ⟨49, 0, {}, true⟩, ⟨48, 0, {}, true⟩,
            ⟨scancodeToKeycode 98, 0, {}, true⟩, ⟨SDLK_BACKSPACE, 0, {}, true⟩]).input,
          c.isDigit = true) ∧
        (afterKeys exampleEnv { intFun := true }
          [⟨48, 0, {}, true⟩, ⟨49, 0, {}, true⟩, ⟨48, 0, {}, true⟩,
            ⟨scancodeToKeycode 98, 0, {}, true⟩, ⟨SDLK_BACKSPACE, 0, {}, true⟩]).input.head? ≠
          some '0')) :=
  ⟨by decide,
    (integer_input_no_leading_zero exampleEnv { intFun := true }
      [⟨48, 0, {}, true⟩, ⟨49, 0, {}, true⟩, ⟨48, 0, {}, true⟩,
        ⟨scancodeToKeycode 98, 0, {}, true⟩, ⟨SDLK_BACKSPACE, 0, {}, true⟩] rfl rfl rfl
      rfl).1⟩

end Dialog

namespace Dialog

open SDL

theorem isCloseRequest_enter (key : Int) (mod : Nat)
    (hkey : key = SDLK_RETURN ∨ key = SDLK_KP_ENTER) : isCloseRequest key mod = false := by
  rcases hkey with rfl | rfl <;>
    simp [isCloseRequest, SDLK_RETURN, SDLK_KP_ENTER, SDLK_ESCAPE, SDLK_AC_BACK,
      scancodeToKeycode]

theorem shortcuts_enter (d : Dialog) (key : Int) (mod : Nat)
    (hkey : key = SDLK_RETURN ∨ key = SDLK_KP_ENTER) : shortcuts d key mod = d := by
  have hc := isCloseRequest_enter key mod hkey
  have h97 : (key == 97) = false := by
    rcases hkey with rfl | rfl <;> decide
  have h100 : (key == 100) = false := by
    rcases hkey with rfl | rfl <;> decide
  simp [shortcuts, hc, h97, h100]

theorem KeyDown_enter (env : Env) (d : Dialog) (key : Int) (mod : Nat) (command : Command)
    (isNewPress : Bool) (hkey : key = SDLK_RETURN ∨ key = SDLK_KP_ENTER) :
    KeyDown env d key mod command isNewPress = acceptOrClose env d := by
  have hs := shortcuts_enter d key mod hkey
  unfold KeyDown
  rw [hs]
  rcases hkey with rfl | rfl
  · have h1 : (inKeyMap SDLK_RETURN || (decide (32 ≤ SDLK_RETURN) &&
        decide (SDLK_RETURN ≤ 126))) = false := by decide
    have h2 : (SDLK_RETURN == SDLK_DELETE || SDLK_RETURN == SDLK_BACKSPACE) = false := by
      decide
    have h3 : (SDLK_RETURN == SDLK_TAB) = false := by decide
    have h4 : (SDLK_RETURN == SDLK_LEFT) = false := by decide
    have h5 : (SDLK_RETURN == SDLK_RIGHT) = false := by decide
    have h6 : (SDLK_RETURN == SDLK_UP) = false := by decide
    have h7 : (SDLK_RETURN == SDLK_DOWN) = false := by decide
    have h8 : (SDLK_RETURN == SDLK_RETURN) = true := by decide
    simp only [h1, h2, h3, h4, h5, h6, h7, h8, Bool.false_and, Bool.true_or,
      Bool.false_eq_true, if_false, if_true]
  · have h1 : (inKeyMap SDLK_KP_ENTER || (decide (32 ≤ SDLK_KP_ENTER) &&
        decide (SDLK_KP_ENTER ≤ 126))) = false := by decide
    have h2 : (SDLK_KP_ENTER == SDLK_DELETE || SDLK_KP_ENTER == SDLK_BACKSPACE) = false := by
      decide
    have h3 : (SDLK_KP_ENTER == SDLK_TAB) = false := by decide
    have h4 : (SDLK_KP_ENTER == SDLK_LEFT) = false := by decide
    have h5 : (SDLK_KP_ENTER == SDLK_RIGHT) = false := by decide
    have h6 : (SDLK_KP_ENTER == SDLK_UP) = false := by decide
    have h7 : (SDLK_KP_ENTER == SDLK_DOWN) = false := by decide
    have h8 : (SDLK_KP_ENTER == SDLK_KP_ENTER) = true := by decide
    simp only [h1, h2, h3, h4, h5, h6, h7, h8, Bool.false_and, Bool.true_or, Bool.or_true,
      Bool.false_eq_true, if_false, if_true]

theorem validate_boolFun (d : Dialog) : (validate d).boolFun = d.boolFun := by
  unfold validate; split <;> rfl

theorem shortcuts_flags (d : Dialog) (key : Int) (mod : Nat) :
    (shortcuts d key mod).boolFun = d.boolFun ∧
    (shortcuts d key mod).isOkDisabled = d.isOkDisabled := by
  unfold shortcuts
  simp only
  split <;> split <;> exact ⟨rfl, rfl⟩

theorem KeyDown_keeps_boolFun (env : Env) (d : Dialog) (key : Int) (mod : Nat)
    (command : Command) (isNewPress : Bool) :
    (KeyDown env d key mod command isNewPress).1.boolFun = d.boolFun := by
  generalize hr : KeyDown env d key mod command isNewPress = r
  unfold KeyDown at hr
  repeat' split at hr
  all_goals subst hr
  all_goals first
    | rfl
    | exact validate_boolFun _
    | (rw [acceptOrClose_dialog]; exact (shortcuts_flags d key mod).1)

theorem afterKeys_keeps_boolFun (env : Env) (events : List KeyEvent) (d : Dialog) :
    (afterKeys env d events).boolFun = d.boolFun := by
  induction events generalizing d with
  | nil => rfl
  | cons e r ih =>
    exact (ih _).trans (KeyDown_keeps_boolFun env d e.key e.mod e.command e.isNewPress)

theorem KeyDown_without_input (env : Env) (d : Dialog) (key : Int) (mod : Nat)
    (command : Command) (isNewPress : Bool)
    (hi : d.intFun = false) (hs : d.stringFun = false) (hin : d.input = []) :
    (KeyDown env d key mod command isNewPress).1.input = [] ∧
    (KeyDown env d key mod command isNewPress).1.isOkDisabled = d.isOkDisabled := by
  generalize hr : KeyDown env d key mod command isNewPress = r
  unfold KeyDown at hr
  split at hr
  · rename_i h
    simp [hi, hs] at h
  · split at hr
    · rename_i h
      simp [hin] at h
    · repeat' split at hr
      all_goals subst hr
      all_goals first
        | exact ⟨hin, rfl⟩
        | (rw [acceptOrClose_dialog, (shortcuts_input d key mod).1]
           exact ⟨hin, (shortcuts_flags d key mod).2⟩)

theorem afterKeys_without_input (env : Env) (events : List KeyEvent) (d : Dialog)
    (hi : d.intFun = false) (hs : d.stringFun = false) (hin : d.input = []) :
    (afterKeys env d events).isOkDisabled = d.isOkDisabled := by
  induction events generalizing d with
  | nil => rfl
  | cons e r ih =>
    have hk := KeyDown_keeps_kind env d e.key e.mod e.command e.isNewPress
    have hs' := KeyDown_keeps_stringFun env d e.key e.mod e.command e.isNewPress
    have hw := KeyDown_without_input env d e.key e.mod e.command e.isNewPress hi hs hin
    exact (ih _ (hk.1.trans hi) (hs'.trans hs) hw.1).trans hw.2

theorem acceptOrClose_disabled (env : Env) (d : Dialog)
    (hdis : d.isOkDisabled = true) (hok : d.okIsActive = true) (hb : d.boolFun = false) :
    acceptOrClose env d = (d, [], true) := by
  simp [acceptOrClose, hdis, hok, hb]

/-- C17: in every state that key presses lead a dialog to in which the OK button is
disabled, a `KeyDown` of Return or keypad Enter while OK is active executes no
callback; it has no effect at all and leaves the dialog as it is.  The dialog `d0`
before the key presses is any dialog; only a dialog with a bool callback, whose
callback is called before the disabled OK is looked at, has to be as it is built:
without an input callback, with an empty input and OK enabled.  Such a dialog never
has its OK disabled.  Without key presses, `d0` is every state of a dialog without a
bool callback. -/
theorem disabled_ok_blocks_callback (env : Env) (d0 : Dialog) (events : List KeyEvent)
    (key : Int) (mod : Nat) (command : Command) (isNewPress : Bool)
    (hbuilt : d0.boolFun = true →
      d0.intFun = false ∧ d0.stringFun = false ∧ d0.input = [] ∧ d0.isOkDisabled = false)
    (hdis : (afterKeys env d0 events).isOkDisabled = true)
    (hok : (afterKeys env d0 events).okIsActive = true)
    (hkey : key = SDLK_RETURN ∨ key = SDLK_KP_ENTER) :
    (KeyDown env (afterKeys env d0 events) key mod command isNewPress).2.1 = [] ∧
    (KeyDown env (afterKeys env d0 events) key mod command isNewPress).1 =
      afterKeys env d0 events := by
  have hb : (afterKeys env d0 events).boolFun = false := by
    cases hb0 : d0.boolFun with
    | false => rw [afterKeys_keeps_boolFun, hb0]
    | true =>
      obtain ⟨hi, hs, hin, hen⟩ := hbuilt hb0
      have := afterKeys_without_input env events d0 hi hs hin
      rw [this, hen] at hdis
      exact absurd hdis (by decide)
  rw [KeyDown_enter env _ key mod command isNewPress hkey,
    acceptOrClose_disabled env _ hdis hok hb]
  exact ⟨rfl, rfl⟩

/-- C17, an instance: a text input that is valid from two characters on; after the
key `a` the validation has rejected the input `a` and Return executes nothing. -/
theorem disabled_ok_blocks_callback_witness :
    (afterKeys exampleEnv
      { stringFun := true, validateFun := some (fun s => decide (2 ≤ s.length)) }
      [⟨97, 0, {}, true⟩]).input = ['a'] ∧
    (afterKeys exampleEnv
      { stringFun := true, validateFun := some (fun s => decide (2 ≤ s.length)) }
      [⟨97, 0, {}, true⟩]).isOkDisabled = true ∧
    (KeyDown exampleEnv
      (afterKeys exampleEnv
        { stringFun := true, validateFun := some (fun s => decide (2 ≤ s.length)) }
        [⟨97, 0, {}, true⟩])
      SDLK_RETURN 0 {} true).2.1 = [] :=
  ⟨by decide, by decide,
    (disabled_ok_blocks_callback exampleEnv
      { stringFun := true, validateFun := some (fun s => decide (2 ≤ s.length)) }
      [⟨97, 0, {}, true⟩] SDLK_RETURN 0 {} true (by decide) (by decide) (by decide)
      (Or.inl rfl)).1⟩

end Dialog

namespace Dialog

theorem maxHeight_nonneg (env : Env) (h : 0 ≤ env.screenHeight) : 0 ≤ maxHeight env :=
  Int.tdiv_nonneg (by omega) (by norm_num)

theorem Init_narrow (env : Env) (d : Dialog) (message : List Char)
    (truncate : WrappedText.Truncate) (canCancel isMission : Bool)
    (h : ¬ (narrowText env d message truncate).Height > maxHeight env) :
    (Init env d message truncate canCancel isMission).isWide = false ∧
    (Init env d message truncate canCancel isMission).text =
      narrowText env d message truncate := by
  have h' : ¬ ((((((d.text.SetAlignment WrappedText.Alignment.JUSTIFIED).SetWrapWidth
      (WIDTH - 20)).SetFont env.font env.fontDefaults).SetTruncate truncate).Wrap
      message).Height > maxHeight env) := h
  simp only [Init, Width, Bool.false_eq_true, if_false, if_neg h']
  exact ⟨trivial, rfl⟩

theorem Init_skinny (env : Env) (d : Dialog) (message : List Char)
    (truncate : WrappedText.Truncate) (canCancel isMission : Bool)
    (h : (narrowText env d message truncate).Height > maxHeight env)
    (hw : (wideText env d message truncate).LongestLineWidth ≤ WIDTH) :
    (Init env d message truncate canCancel isMission).isWide = false ∧
    (Init env d message truncate canCancel isMission).text =
      ((((wideText env d message truncate).SetWrapWidth (WIDTH - 20)).Wrap
        message).SetVisibleHeight (maxHeight env)) := by
  have h' : (((((d.text.SetAlignment WrappedText.Alignment.JUSTIFIED).SetWrapWidth
      (WIDTH - 20)).SetFont env.font env.fontDefaults).SetTruncate truncate).Wrap
      message).Height > maxHeight env := h
  have hw' : (((((((d.text.SetAlignment WrappedText.Alignment.JUSTIFIED).SetWrapWidth
      (WIDTH - 20)).SetFont env.font env.fontDefaults).SetTruncate truncate).Wrap
      message).SetWrapWidth (WIDE_WIDTH - 20)).Wrap message).LongestLineWidth ≤ WIDTH := hw
  simp only [Init, Width, Bool.false_eq_true, if_false, if_true, if_pos h', if_pos hw']
  exact ⟨trivial, rfl⟩

theorem Init_wide (env : Env) (d : Dialog) (message : List Char)
    (truncate : WrappedText.Truncate) (canCancel isMission : Bool)
    (h : (narrowText env d message truncate).Height > maxHeight env)
    (hw : ¬ (wideText env d message truncate).LongestLineWidth ≤ WIDTH) :
    (Init env d message truncate canCancel isMission).isWide = true ∧
    (Init env d message truncate canCancel isMission).text =
      if (wideText env d message truncate).Height > maxHeight env then
        (wideText env d message truncate).SetVisibleHeight (maxHeight env)
      else wideText env d message truncate := by
  have h' : (((((d.text.SetAlignment WrappedText.Alignment.JUSTIFIED).SetWrapWidth
      (WIDTH - 20)).SetFont env.font env.fontDefaults).SetTruncate truncate).Wrap
      message).Height > maxHeight env := h
  have hw' : ¬ (((((((d.text.SetAlignment WrappedText.Alignment.JUSTIFIED).SetWrapWidth
      (WIDTH - 20)).SetFont env.font env.fontDefaults).SetTruncate truncate).Wrap
      message).SetWrapWidth (WIDE_WIDTH - 20)).Wrap message).LongestLineWidth ≤ WIDTH := hw
  by_cases ht : (wideText env d message truncate).Height > maxHeight env
  · have ht' : (((((((d.text.SetAlignment WrappedText.Alignment.JUSTIFIED).SetWrapWidth
        (WIDTH - 20)).SetFont env.font env.fontDefaults).SetTruncate truncate).Wrap
        message).SetWrapWidth (WIDE_WIDTH - 20)).Wrap message).Height > maxHeight env := ht
    rw [if_pos ht]
    simp only [Init, Width, Bool.false_eq_true, if_false, if_true, if_pos h', if_neg hw',
      if_pos ht']
    exact ⟨trivial, rfl⟩
  · have ht' : ¬ (((((((d.text.SetAlignment WrappedText.Alignment.JUSTIFIED).SetWrapWidth
        (WIDTH - 20)).SetFont env.font env.fontDefaults).SetTruncate truncate).Wrap
        message).SetWrapWidth (WIDE_WIDTH - 20)).Wrap message).Height > maxHeight env := ht
    rw [if_neg ht]
    simp only [Init, Width, Bool.false_eq_true, if_false, if_true, if_pos h', if_neg hw',
      if_neg ht']
    exact ⟨trivial, rfl⟩

end Dialog

namespace Dialog

/-- C18: `Init` starts from a text without clipping, on a screen of non-negative
height.  It ends in wide mode (wrap width 430, otherwise 230) exactly when the text
wrapped at the narrow width is taller than 3/4 of the screen height and the text
wrapped again at the wide width has a longest line wider than 250.  It ends with a
bounded visible height, which is then 3/4 of the screen height, exactly when the
narrow layout is too tall and the longest line of the wide layout is at most 250 or
the wide layout is still too tall.  When the narrow layout is not too tall the
dialog stays narrow and unclipped. -/
theorem Init_width_and_clipping (env : Env) (d : Dialog) (message : List Char)
    (truncate : WrappedText.Truncate) (canCancel isMission : Bool)
    (hfresh : d.text.visibleHeight = -1) (hscreen : 0 ≤ env.screenHeight) :
    ((Init env d message truncate canCancel isMission).isWide = true ↔
      ((narrowText env d message truncate).Height > maxHeight env ∧
        (wideText env d message truncate).LongestLineWidth > 250)) ∧
    ((Init env d message truncate canCancel isMission).text.wrapWidth =
      if (Init env d message truncate canCancel isMission).isWide then 430 else 230) ∧
    ((Init env d message truncate canCancel isMission).text.visibleHeight ≠ -1 ↔
      ((narrowText env d message truncate).Height > maxHeight env ∧
        ((wideText env d message truncate).LongestLineWidth ≤ 250 ∨
          (wideText env d message truncate).Height > maxHeight env))) ∧
    ((Init env d message truncate canCancel isMission).text.visibleHeight ≠ -1 →
      (Init env d message truncate canCancel isMission).text.visibleHeight =
        maxHeight env) ∧
    (¬ (narrowText env d message truncate).Height > maxHeight env →
      (Init env d message truncate canCancel isMission).isWide = false ∧
      (Init env d message truncate canCancel isMission).text.wrapWidth = 230 ∧
      (Init env d message truncate canCancel isMission).text.visibleHeight = -1) := by
  have hmax : maxHeight env ≠ -1 := by
    have := maxHeight_nonneg env hscreen
    omega
  have hNv : (narrowText env d message truncate).visibleHeight = -1 := hfresh
  have hWv : (wideText env d message truncate).visibleHeight = -1 := hfresh
  have hNw : (narrowText env d message truncate).wrapWidth = 230 := rfl
  have hWw : (wideText env d message truncate).wrapWidth = 430 := rfl
  by_cases h : (narrowText env d message truncate).Height > maxHeight env
  · by_cases hw : (wideText env d message truncate).LongestLineWidth ≤ WIDTH
    · obtain ⟨h1, h2⟩ := Init_skinny env d message truncate canCancel isMission h hw
      have hw250 : (wideText env d message truncate).LongestLineWidth ≤ 250 := hw
      have hv : (Init env d message truncate canCancel isMission).text.visibleHeight =
          maxHeight env := by rw [h2]; rfl
      have hww : (Init env d message truncate canCancel isMission).text.wrapWidth = 230 := by
        rw [h2]; rfl
      refine ⟨?_, ?_, ?_, fun _ => hv, fun hn => absurd h hn⟩
      · rw [h1]
        constructor
        · intro hc; exact absurd hc (by decide)
        · rintro ⟨-, hc⟩; omega
      · rw [h1, hww]; rfl
      · rw [hv]
        exact ⟨fun _ => ⟨h, Or.inl hw250⟩, fun _ => hmax⟩
    · obtain ⟨h1, h2⟩ := Init_wide env d message truncate canCancel isMission h hw
      have hw250 : ¬ (wideText env d message truncate).LongestLineWidth ≤ 250 := hw
      by_cases ht : (wideText env d message truncate).Height > maxHeight env
      · rw [if_pos ht] at h2
        have hv : (Init env d message truncate canCancel isMission).text.visibleHeight =
            maxHeight env := by rw [h2]; rfl
        have hww : (Init env d message truncate canCancel isMission).text.wrapWidth =
            430 := by rw [h2]; exact hWw
        refine ⟨?_, ?_, ?_, fun _ => hv, fun hn => absurd h hn⟩
        · rw [h1]
          exact ⟨fun _ => ⟨h, by omega⟩, fun _ => rfl⟩
        · rw [h1, hww]; rfl
        · rw [hv]
          exact ⟨fun _ => ⟨h, Or.inr ht⟩, fun _ => hmax⟩
      · rw [if_neg ht] at h2
        have hv : (Init env d message truncate canCancel isMission).text.visibleHeight =
            -1 := by rw [h2]; exact hWv
        have hww : (Init env d message truncate canCancel isMission).text.wrapWidth =
            430 := by rw [h2]; exact hWw
        refine ⟨?_, ?_, ?_, fun hc => absurd hv hc, fun hn => absurd h hn⟩
        · rw [h1]
          exact ⟨fun _ => ⟨h, by omega⟩, fun _ => rfl⟩
        · rw [h1, hww]; rfl
        · rw [hv]
          constructor
          · intro hc; exact absurd rfl hc
          · rintro ⟨-, hc | hc⟩
            · exact absurd hc hw250
            · exact absurd hc ht
  · obtain ⟨h1, h2⟩ := Init_narrow env d message truncate canCancel isMission h
    have hv : (Init env d message truncate canCancel isMission).text.visibleHeight = -1 := by
      rw [h2]; exact hNv
    have hww : (Init env d message truncate canCancel isMission).text.wrapWidth = 230 := by
      rw [h2]; exact hNw
    refine ⟨?_, ?_, ?_, fun hc => absurd hv hc, fun _ => ⟨h1, hww, hv⟩⟩
    · rw [h1]
      constructor
      · intro hc; exact absurd hc (by decide)
      · rintro ⟨hc, -⟩; exact absurd hc h
    · rw [h1, hww]; rfl
    · rw [hv]
      constructor
      · intro hc; exact absurd rfl hc
      · rintro ⟨hc, -⟩; exact absurd hc h

/-- C18, an instance: on a screen 30 pixels high (limit 22) a text of four lines at
the narrow width is too tall, and at the wide width it has a line wider than 250 and
is still too tall: the dialog ends wide, at wrap width 430, clipped to 22. -/
theorem Init_width_and_clipping_witness :
    (Init { exampleEnv with screenHeight := 30 } {}
      "aaaaaaaaaa bbbbbbbbbb cccccccccc dddddddddd eeeeeeeeee ffffffffff gggggggggg".toList
      WrappedText.Truncate.NONE true false).isWide = true ∧
    (Init { exampleEnv with screenHeight := 30 } {}
      "aaaaaaaaaa bbbbbbbbbb cccccccccc dddddddddd eeeeeeeeee ffffffffff gggggggggg".toList
      WrappedText.Truncate.NONE true false).text.wrapWidth = 430 ∧
    (Init { exampleEnv with screenHeight := 30 } {}
      "aaaaaaaaaa bbbbbbbbbb cccccccccc dddddddddd eeeeeeeeee ffffffffff gggggggggg".toList
      WrappedText.Truncate.NONE true false).text.visibleHeight = 22 :=
  ⟨(Init_width_and_clipping { exampleEnv with screenHeight := 30 } {}
      "aaaaaaaaaa bbbbbbbbbb cccccccccc dddddddddd eeeeeeeeee ffffffffff gggggggggg".toList
      WrappedText.Truncate.NONE true false rfl (by decide)).1.2 (by decide),
    by decide, by decide⟩

end Dialog
